import Mathlib

/-!
# Verification of the go-rtl serialization library against its specification

This file shallowly embeds the core of the go-rtl repository (RTL binary
serialization: header codec, numeric codec, writers, readers, versioned
struct fields) and proves or refutes the frozen claims about it.

Conventions of the embedding:
* Go byte strings are `List Nat` with every entry `< 256`.
* Go `uint64` arithmetic is `Nat` with explicit `% 2^64` where wrap-around
  matters; Go `int64` is `Int` with explicit two's-complement reinterpretation.
* fallible Go functions return `Except`.
* The byte reader is a `List Nat` of the remaining input; the reader created
  by `NewValueReader` on a length-aware source has `left = readerSize -
  readCount`, which equals the length of the remaining list, so the
  multi-length bound check compares against that length.
-/

set_option maxRecDepth 8000

/-! ## Numeric codec (numeric.go) -/

/-- `numeric.writeUint` (numeric.go): big-endian bytes of `i` stripped of
leading zero bytes, except `0`, which is written as one `0x00` byte.  The Go
source writes into a caller buffer and returns the byte count; the Lean
embedding returns the bytes written.  `byte(x)` in Go is `x % 256`. -/
def writeUint (i : Nat) : List Nat :=
  if i < 2^8 then [i % 256]
  else if i < 2^16 then [i / 2^8 % 256, i % 256]
  else if i < 2^24 then [i / 2^16 % 256, i / 2^8 % 256, i % 256]
  else if i < 2^32 then [i / 2^24 % 256, i / 2^16 % 256, i / 2^8 % 256, i % 256]
  else if i < 2^40 then
    [i / 2^32 % 256, i / 2^24 % 256, i / 2^16 % 256, i / 2^8 % 256, i % 256]
  else if i < 2^48 then
    [i / 2^40 % 256, i / 2^32 % 256, i / 2^24 % 256, i / 2^16 % 256,
     i / 2^8 % 256, i % 256]
  else if i < 2^56 then
    [i / 2^48 % 256, i / 2^40 % 256, i / 2^32 % 256, i / 2^24 % 256,
     i / 2^16 % 256, i / 2^8 % 256, i % 256]
  else
    [i / 2^56 % 256, i / 2^48 % 256, i / 2^40 % 256, i / 2^32 % 256,
     i / 2^24 % 256, i / 2^16 % 256, i / 2^8 % 256, i % 256]

/-- `numeric.bytesToUint` (numeric.go): big-endian value of the last `n`
bytes of `b` accumulated into a `uint64` (`r <<= 8; r += b[i]`). -/
def bytesToUint (b : List Nat) (n : Nat) : Nat :=
  ((b.drop (b.length - n)).foldl (fun r x => (r * 256 + x) % 2^64) 0)

/-- `numeric.BytesToUint64` (numeric.go). -/
def BytesToUint64 (b : List Nat) : Nat := bytesToUint b 8

/-- Reinterpretation of a Go `uint64` bit pattern as `int64`
(`int64(u)`), i.e. two's complement. -/
def int64ofUint64 (u : Nat) : Int :=
  if u < 2^63 then (u : Int) else (u : Int) - 2^64

/-- Go negation on `int64`: two's complement, so `-MinInt64 = MinInt64`. -/
def negInt64 (i : Int) : Int :=
  if i = -(2^63) then -(2^63) else -i

/-- Reinterpretation of a Go `int64` as `uint64` (`uint64(i)`). -/
def uint64ofInt64 (i : Int) : Nat :=
  (i % 2^64).toNat

/-- `numeric.BytesToInt64` (numeric.go): reinterpret the last 8 bytes as an
`int64`; negate only when the intermediate value is positive. -/
def BytesToInt64 (b : List Nat) (isNegative : Bool) : Int :=
  let r := int64ofUint64 (bytesToUint b 8)
  if isNegative ∧ r > 0 then -r else r

/-- `numeric.UintToBytes` (numeric.go): minimal big-endian bytes, empty for 0. -/
def UintToBytes (i : Nat) : List Nat :=
  if i ≤ 0 then [] else writeUint i

/-- `numeric.IntToBytes` (numeric.go): sign flag plus the magnitude bytes.
The Go comment notes `i = -i` leaves `MinInt64` unchanged. -/
def IntToBytes (i : Int) : Bool × List Nat :=
  (decide (i < 0), UintToBytes (uint64ofInt64 (if i < 0 then negInt64 i else i)))

/-- `big.Int.Bytes()`: minimal big-endian bytes of the absolute value
(empty for zero).  Used by `numeric.BigIntToBytes`. -/
def natToBytesBE (n : Nat) : List Nat :=
  if n = 0 then [] else natToBytesBE (n / 256) ++ [n % 256]

/-- `numeric.BigIntToBytes` (numeric.go): the sign of the big integer and
the minimal big-endian bytes of its absolute value. -/
def BigIntToBytes (bi : Int) : Bool × List Nat :=
  (bi < 0, natToBytesBE bi.natAbs)

/-! ## Header codec (the `THValue` table and `headMaker`) -/

/-- `THValueType`: how the low bits of a header byte are interpreted. -/
inductive THVT where
  | byte   : THVT  -- inline value
  | single : THVT  -- single byte header: low bits are the payload length
  | multi  : THVT  -- multi bytes header: low bits are the byte-length of a count
deriving DecidableEq, Repr

/-- One row of `headerTypeMap`: code, mask, wildcard mask, value type,
whether value bytes follow, whether nested encodings follow. -/
structure THValue where
  C : Nat
  M : Nat
  W : Nat
  T : THVT
  B : Bool
  X : Bool
deriving DecidableEq, Repr

/-- `THValue.Match` : `(b & M) == C`. -/
def thMatch (thv : THValue) (b : Nat) : Bool := (b &&& thv.M) == thv.C

/-- `THValue.WithNumber` : `C | (b & W)`. -/
def withNumber (thv : THValue) (b : Nat) : Nat := thv.C ||| (b &&& thv.W)

/-- The fourteen type headers (`TypeHeader` constants). -/
inductive TypeHeader where
  | singleByte | zeroValue | thTrue | empty
  | arraySingle | arrayMulti
  | posNumSingle | negNumSingle | posBigInt | negBigInt
  | stringSingle | stringMulti
  | version | versionSingle
deriving DecidableEq, Repr

/-- `headerTypeMap`: the header constant table from the source. -/
def headerTypeMap : TypeHeader → THValue
  | .singleByte    => ⟨0x00, 0x80, 0x7F, .byte, false, false⟩
  | .zeroValue     => ⟨0x80, 0xFF, 0x00, .byte, false, false⟩
  | .thTrue        => ⟨0x81, 0xFF, 0x00, .byte, false, false⟩
  | .empty         => ⟨0x82, 0xFF, 0x00, .byte, false, false⟩
  | .arraySingle   => ⟨0x90, 0xF0, 0x0F, .single, false, true⟩
  | .arrayMulti    => ⟨0x88, 0xF8, 0x07, .multi, false, true⟩
  | .posNumSingle  => ⟨0xA0, 0xF8, 0x07, .single, true, false⟩
  | .negNumSingle  => ⟨0xA8, 0xF8, 0x07, .single, true, false⟩
  | .posBigInt     => ⟨0xB0, 0xF8, 0x07, .multi, true, false⟩
  | .negBigInt     => ⟨0xB8, 0xF8, 0x07, .multi, true, false⟩
  | .stringSingle  => ⟨0xC0, 0xE0, 0x1F, .single, true, false⟩
  | .stringMulti   => ⟨0xE0, 0xF8, 0x07, .multi, true, false⟩
  | .version       => ⟨0xF0, 0xF0, 0x0F, .byte, false, false⟩
  | .versionSingle => ⟨0xE8, 0xF8, 0x07, .single, false, false⟩

/-- All fourteen type headers, for iteration over the table. -/
def allTypeHeaders : List TypeHeader :=
  [.singleByte, .zeroValue, .thTrue, .empty, .arraySingle, .arrayMulti,
   .posNumSingle, .negNumSingle, .posBigInt, .negBigInt,
   .stringSingle, .stringMulti, .version, .versionSingle]

/-- Number of rows of the header table matching a byte.  The Go source
iterates the `headerTypeMap` Go map; the result of that iteration is
well-defined exactly because at most one row matches. -/
def matchCount (b : Nat) : Nat :=
  (allTypeHeaders.filter (fun th => thMatch (headerTypeMap th) b)).length

inductive DErr where
  | unsupported          -- ErrUnsupported
  | eof                  -- io.EOF
  | lengthError          -- ErrLength
  | mismatch             -- type mismatch errors
  | nestingOverflow      -- ErrNestingOverflow
  | lengthTooBig         -- multi-length larger than what is left
  | decodeErr            -- other decode errors
deriving DecidableEq, Repr

/-- `ParseRTLHeader` (valuereader.go): find the row matching the byte; for
inline rows return the packed value, for header rows return the packed
length where all-zero low bits denote the maximum `W+1`.  No matching row
is the `ErrUnsupported` failure branch. -/
def ParseRTLHeader (b : Nat) : Except DErr (TypeHeader × Nat) :=
  match allTypeHeaders.find? (fun th => thMatch (headerTypeMap th) b) with
  | some th =>
    let thv := headerTypeMap th
    match thv.T with
    | .byte => .ok (th, b &&& thv.W)
    | _ =>
      let l := b &&& thv.W
      .ok (th, if l = 0 then thv.W + 1 else l)
  | none => .error .unsupported

/-- `headMaker.stringBuf`/`string` (writers): string header bytes. -/
def headMakerString (length : Nat) : List Nat :=
  if length ≤ 0 then []
  else if length ≤ 32 then [withNumber (headerTypeMap .stringSingle) length]
  else
    withNumber (headerTypeMap .stringMulti) (writeUint length).length
      :: writeUint length

/-- `headMaker.arrayBuf`/`array` (writers): array header bytes. -/
def headMakerArray (length : Nat) : List Nat :=
  if length ≤ 0 then []
  else if length ≤ 16 then [withNumber (headerTypeMap .arraySingle) length]
  else
    withNumber (headerTypeMap .arrayMulti) (writeUint length).length
      :: writeUint length

/-- `headMaker.numericBuf`/`numeric` (writers): numeric header bytes for a
payload of `length` bytes with the given sign. -/
def headMakerNumeric (isNegative : Bool) (length : Nat) : List Nat :=
  if length ≤ 0 then []
  else if length ≤ 8 then
    if isNegative then [withNumber (headerTypeMap .negNumSingle) length]
    else [withNumber (headerTypeMap .posNumSingle) length]
  else if isNegative then
    withNumber (headerTypeMap .negBigInt) (writeUint length).length
      :: writeUint length
  else
    withNumber (headerTypeMap .posBigInt) (writeUint length).length
      :: writeUint length

/-! ## Scalar writers (the writer engine) -/

/-- `smallNumberWriter` (writers file): a non-negative magnitude up to 127
is its own single byte; otherwise a numeric header plus the stripped
big-endian magnitude bytes. -/
def smallNumberWriter (isNegative : Bool) (i : Nat) : List Nat :=
  if isNegative = false ∧ i ≤ 127 then [i]
  else headMakerNumeric isNegative (writeUint i).length ++ writeUint i

/-- `intWriter` (writers file): capture the sign, negate (Go `int64`
negation), then `smallNumberWriter`. -/
def intWriter (i : Int) : List Nat :=
  if i < 0 then smallNumberWriter true (uint64ofInt64 (negInt64 i))
  else smallNumberWriter false (uint64ofInt64 i)

/-- `_writeNumberBytes` (priors writers): numeric header plus payload. -/
def writeNumberBytes (isNegative : Bool) (bs : List Nat) : List Nat :=
  headMakerNumeric isNegative bs.length ++ bs

/-- `writeBigInt`/`bigIntWriter` (priors writers): `0 ≤ bi < 128` is a
single inline byte, anything else is sign plus magnitude bytes behind a
numeric header. -/
def writeBigInt (bi : Int) : List Nat :=
  if ¬(bi < 0) ∧ bi < 128 then [bi.toNat]
  else writeNumberBytes (BigIntToBytes bi).1 (BigIntToBytes bi).2

/-! ## Theorems -/

/-- helper: bound for the big-endian accumulator. -/
theorem foldl_acc_lt (l : List Nat) (h : ∀ x ∈ l, x < 256) (a : Nat)
    (ha : a < 256 ^ k) (hk : k + l.length ≤ 8) :
    l.foldl (fun r x => (r * 256 + x) % 2^64) a < 256 ^ (k + l.length) := by
  induction l generalizing a k with
  | nil => simpa using ha
  | cons y ys ih =>
    simp only [List.foldl_cons, List.length_cons]
    have hy : y < 256 := h y (by simp)
    have h' : ∀ x ∈ ys, x < 256 := fun x hx => h x (by simp [hx])
    have hk' : (k+1) + ys.length ≤ 8 := by
      simp only [List.length_cons] at hk; omega
    have hacc : a * 256 + y < 256 ^ (k+1) := by
      have : a * 256 + y < (a + 1) * 256 := by nlinarith
      calc a * 256 + y < (a + 1) * 256 := this
        _ ≤ 256 ^ k * 256 := by nlinarith
        _ = 256 ^ (k+1) := by ring
    have hmod : (a * 256 + y) % 2^64 = a * 256 + y := by
      apply Nat.mod_eq_of_lt
      calc a * 256 + y < 256 ^ (k+1) := hacc
        _ ≤ 256 ^ 8 := Nat.pow_le_pow_right (by norm_num) (by omega)
        _ ≤ 2^64 := by norm_num
    rw [hmod]
    have h2 := ih h' (k := k+1) (a * 256 + y) hacc hk'
    rw [show k + (ys.length + 1) = (k+1) + ys.length by omega]
    exact h2

/-- helper: bytes from a list of bytes of length ≤ 8 give a value < 2^64. -/
theorem bytesToUint_lt (b : List Nat) (h : ∀ x ∈ b, x < 256) :
    bytesToUint b 8 < 2^64 := by
  unfold bytesToUint
  have hsub : ∀ x ∈ b.drop (b.length - 8), x < 256 :=
    fun x hx => h x (List.mem_of_mem_drop hx)
  have hlen : (b.drop (b.length - 8)).length ≤ 8 := by
    simp [List.length_drop]
    omega
  have := foldl_acc_lt (k := 0) (b.drop (b.length - 8)) hsub 0 (by norm_num)
    (by omega)
  calc (b.drop (b.length - 8)).foldl (fun r x => (r * 256 + x) % 2^64) 0
      < 256 ^ (0 + (b.drop (b.length - 8)).length) := this
    _ ≤ 256 ^ 8 := Nat.pow_le_pow_right (by norm_num) (by omega)
    _ ≤ 2^64 := by norm_num

/-! ## Decode handlers for numeric destinations (kindhandlers.go) -/

/-- Go `reflect.Value.SetInt` on a signed destination of bit width `w`
stores the two's-complement truncation of its `int64` argument
(`int8(x)`, `int16(x)`, ... perform no overflow check). -/
def setIntTrunc (w : Nat) (x : Int) : Int :=
  (x + 2^(w-1)) % 2^w - 2^(w-1)

/-- `intHandler.Number` (kindhandlers.go): only payloads longer than 8
bytes are rejected; the parsed `int64` is stored into the destination of
bit width `w` via `SetInt`. -/
def intHandlerNumber (w : Nat) (isPositive : Bool) (inputs : List Nat) :
    Except DErr Int :=
  if inputs.length > 8 then .error .decodeErr
  else .ok (setIntTrunc w (BytesToInt64 inputs (!isPositive)))

/-- `uintHandler.Number` (kindhandlers.go): negatives and payloads longer
than 8 bytes are rejected; the parsed `uint64` is stored into the
destination of bit width `w` via `SetUint` (truncating). -/
def uintHandlerNumber (w : Nat) (isPositive : Bool) (inputs : List Nat) :
    Except DErr Nat :=
  if isPositive = false then .error .mismatch
  else if inputs.length > 8 then .error .decodeErr
  else .ok (BytesToUint64 inputs % 2^w)

/-! ## `ReadBytesFromReader` buffer management (valuereader.go) -/

structure GoSlice where
  len : Nat
  cap : Nat
deriving DecidableEq, Repr

def bufLen : Option GoSlice → Nat
  | none => 0
  | some s => s.len

def bufCap : Option GoSlice → Nat
  | none => 0
  | some s => s.cap

/-- Outcome of the buffer-management prefix of `ReadBytesFromReader`. -/
inductive RBOutcome where
  | allocated (n : Nat)   -- a fresh buffer of length n was allocated
  | resliced (n : Nat)    -- the passed buffer was resliced to length n
  | errLength             -- ErrLength (length ≤ 0)
  | panicked              -- Go runtime panic: slice bounds out of range
deriving DecidableEq, Repr

/-- The buffer management of `ReadBytesFromReader` (valuereader.go):
`length ≤ 0` fails with `ErrLength`; the guard `buf == nil && length >
len(buf)` allocates a fresh buffer; otherwise `buf = buf[:length]`
executes, which panics exactly when `length` exceeds the capacity.
(The byte reading that follows is modeled separately as `readBytes`.) -/
def ReadBytesFromReaderBuf (length : Int) (buf : Option GoSlice) : RBOutcome :=
  if length ≤ 0 then .errLength
  else if buf = none ∧ length > (bufLen buf : Int) then .allocated length.toNat
  else if length ≤ (bufCap buf : Int) then .resliced length.toNat
  else .panicked

/-! ## Claim C4 -/

/-- C4 counterexample: byte `0x83` matches none of the fourteen tag
patterns, so header parsing hits the no-match `ErrUnsupported` branch,
refuting the joint-coverage half of the claim. -/
theorem C4_counterexample :
    matchCount 0x83 = 0 ∧ ParseRTLHeader 0x83 = .error .unsupported := by
  constructor
  · rfl
  · rfl

/-- C4 (amended): every header byte 0x00–0xFF matches at most one of the
fourteen tag patterns (pairwise disjointness), and the bytes matching no
pattern — where parsing fails with the unsupported-header branch — are
exactly 0x83 through 0x87; every other byte matches exactly one tag. -/
theorem C4_tag_patterns (b : Nat) (hb : b < 256) :
    matchCount b ≤ 1 ∧ (matchCount b = 0 ↔ 0x83 ≤ b ∧ b ≤ 0x87) := by
  revert hb
  revert b
  decide

/-- C4 witness: the amended theorem at the concrete byte 0x42. -/
theorem C4_tag_patterns_witness :
    matchCount 0x42 ≤ 1 ∧ (matchCount 0x42 = 0 ↔ 0x83 ≤ 0x42 ∧ 0x42 ≤ 0x87) :=
  C4_tag_patterns 0x42 (by decide)

/-! ## Claim C7 -/

/-- C7 counterexample: encoding the numeric value 129 = N+1 for N = 128
still produces the single-header form `0xA1 0x81` (PosNumSingle), not the
multi-header form: the header byte matches the PosNumSingle pattern, whose
table row is single-header, and does not match PosBigInt. -/
theorem C7_counterexample :
    smallNumberWriter false 129 = [0xA1, 0x81]
    ∧ thMatch (headerTypeMap .posNumSingle) 0xA1 = true
    ∧ (headerTypeMap .posNumSingle).T = .single
    ∧ thMatch (headerTypeMap .posBigInt) 0xA1 = false := by
  refine ⟨?_, by rfl, by rfl, by rfl⟩
  rfl

/-- C7 (amended): the array boundary is 16 (single-header `0x90` at 16,
multi-header `0x89 0x11` at 17) and the string boundary is 32
(single-header `0xC0` at 32, multi-header `0xE1 0x21` at 33), as claimed.
For numerics the boundary 128 separates the inline single-byte form
(127 encodes as `0x7F`) from the headered single-header numeric form
(128 encodes as `0xA1 0x80`); the numeric multi-header form starts at
payload length 9, not at the value 129: a payload of 8 bytes still gets a
single-header `0xA0`/`0xA8`, a payload of 9 bytes gets the multi-header
`0xB1 0x09`/`0xB9 0x09`. -/
theorem C7_tag_boundaries :
    (headMakerArray 16 = [0x90]
      ∧ thMatch (headerTypeMap .arraySingle) 0x90 = true
      ∧ (headerTypeMap .arraySingle).T = .single)
    ∧ (headMakerArray 17 = [0x89, 0x11]
      ∧ thMatch (headerTypeMap .arrayMulti) 0x89 = true
      ∧ (headerTypeMap .arrayMulti).T = .multi)
    ∧ (headMakerString 32 = [0xC0]
      ∧ thMatch (headerTypeMap .stringSingle) 0xC0 = true
      ∧ (headerTypeMap .stringSingle).T = .single)
    ∧ (headMakerString 33 = [0xE1, 0x21]
      ∧ thMatch (headerTypeMap .stringMulti) 0xE1 = true
      ∧ (headerTypeMap .stringMulti).T = .multi)
    ∧ (smallNumberWriter false 127 = [0x7F]
      ∧ thMatch (headerTypeMap .singleByte) 0x7F = true)
    ∧ (smallNumberWriter false 128 = [0xA1, 0x80]
      ∧ thMatch (headerTypeMap .posNumSingle) 0xA1 = true
      ∧ (headerTypeMap .posNumSingle).T = .single)
    ∧ (headMakerNumeric false 8 = [0xA0]
      ∧ headMakerNumeric true 8 = [0xA8]
      ∧ thMatch (headerTypeMap .posNumSingle) 0xA0 = true
      ∧ thMatch (headerTypeMap .negNumSingle) 0xA8 = true)
    ∧ (headMakerNumeric false 9 = [0xB1, 0x09]
      ∧ headMakerNumeric true 9 = [0xB9, 0x09]
      ∧ thMatch (headerTypeMap .posBigInt) 0xB1 = true
      ∧ thMatch (headerTypeMap .negBigInt) 0xB9 = true
      ∧ (headerTypeMap .posBigInt).T = .multi
      ∧ (headerTypeMap .negBigInt).T = .multi) := by
  decide

/-! ## Claim C9 -/

/-- C9: for an 8-byte negative-number payload whose big-endian magnitude
`m` is at least `2^63`, `BytesToInt64` returns the two's-complement
reinterpretation `m - 2^64` without negating (the guard requires the
intermediate `int64` to be positive); magnitude `2^63` decodes to
`MinInt64`, which is exactly what `IntToBytes MinInt64` produces, so
`MinInt64` round-trips while every other such magnitude decodes to a value
different from `-m`. -/
theorem C9_min_int64 (b : List Nat) (hlen : b.length = 8)
    (hb : ∀ x ∈ b, x < 256) (hm : 2^63 ≤ bytesToUint b 8) :
    BytesToInt64 b true = (bytesToUint b 8 : Int) - 2^64
    ∧ (bytesToUint b 8 = 2^63 → BytesToInt64 b true = -(2^63))
    ∧ (bytesToUint b 8 ≠ 2^63 →
        BytesToInt64 b true ≠ -((bytesToUint b 8 : Int)))
    ∧ IntToBytes (-(2^63)) = (true, [0x80, 0, 0, 0, 0, 0, 0, 0])
    ∧ BytesToInt64 [0x80, 0, 0, 0, 0, 0, 0, 0] true = -(2^63) := by
  have hub : bytesToUint b 8 < 2^64 := bytesToUint_lt b hb
  have hrepr : BytesToInt64 b true = (bytesToUint b 8 : Int) - 2^64 := by
    unfold BytesToInt64 int64ofUint64
    have h1 : ¬ bytesToUint b 8 < 2^63 := by omega
    simp only [h1, if_false]
    have h2 : ¬ ((bytesToUint b 8 : Int) - 2^64 > 0) := by
      have : (bytesToUint b 8 : Int) < 2^64 := by exact_mod_cast hub
      omega
    simp only [gt_iff_lt]
    rw [if_neg]
    intro hcon
    exact h2 hcon.2
  refine ⟨hrepr, ?_, ?_, by decide, by decide⟩
  · intro hm'
    rw [hrepr, hm']
    norm_num
  · intro hm'
    rw [hrepr]
    intro hcon
    have : (2 : Int) * (bytesToUint b 8 : Int) = 2^64 := by omega
    have : (bytesToUint b 8 : Int) = 2^63 := by omega
    exact hm' (by exact_mod_cast this)

/-- C9 witness: the theorem at the 8-byte payload `FF 00 00 00 00 00 00 01`
whose magnitude `0xFF00000000000001` exceeds `2^63` and is not `2^63`. -/
theorem C9_min_int64_witness :
    BytesToInt64 [0xFF, 0, 0, 0, 0, 0, 0, 1] true
      = (bytesToUint [0xFF, 0, 0, 0, 0, 0, 0, 1] 8 : Int) - 2^64 :=
  (C9_min_int64 [0xFF, 0, 0, 0, 0, 0, 0, 1] (by decide) (by decide)
    (by decide)).1

/-- helper: literal form of `writeUint` on each byte-length interval. -/
theorem writeUint_eq1 (n : Nat) (h2 : n < 2^8) :
    writeUint n = [n % 256] := by
  unfold writeUint; rw [if_pos h2]

theorem writeUint_eq2 (n : Nat) (h1 : 2^8 ≤ n) (h2 : n < 2^16) :
    writeUint n =
      [n / 2^8 % 256, n % 256] := by
  unfold writeUint
  rw [if_neg (by omega), if_pos h2]

theorem writeUint_eq3 (n : Nat) (h1 : 2^16 ≤ n) (h2 : n < 2^24) :
    writeUint n =
      [n / 2^16 % 256, n / 2^8 % 256, n % 256] := by
  unfold writeUint
  rw [if_neg (by omega), if_neg (by omega), if_pos h2]

theorem writeUint_eq4 (n : Nat) (h1 : 2^24 ≤ n) (h2 : n < 2^32) :
    writeUint n =
      [n / 2^24 % 256, n / 2^16 % 256, n / 2^8 % 256, n % 256] := by
  unfold writeUint
  rw [if_neg (by omega), if_neg (by omega), if_neg (by omega), if_pos h2]

theorem writeUint_eq5 (n : Nat) (h1 : 2^32 ≤ n) (h2 : n < 2^40) :
    writeUint n =
      [n / 2^32 % 256, n / 2^24 % 256, n / 2^16 % 256, n / 2^8 % 256, n % 256] := by
  unfold writeUint
  rw [if_neg (by omega), if_neg (by omega), if_neg (by omega), if_neg (by omega), if_pos h2]

theorem writeUint_eq6 (n : Nat) (h1 : 2^40 ≤ n) (h2 : n < 2^48) :
    writeUint n =
      [n / 2^40 % 256, n / 2^32 % 256, n / 2^24 % 256, n / 2^16 % 256, n / 2^8 % 256, n % 256] := by
  unfold writeUint
  rw [if_neg (by omega), if_neg (by omega), if_neg (by omega), if_neg (by omega), if_neg (by omega), if_pos h2]

theorem writeUint_eq7 (n : Nat) (h1 : 2^48 ≤ n) (h2 : n < 2^56) :
    writeUint n =
      [n / 2^48 % 256, n / 2^40 % 256, n / 2^32 % 256, n / 2^24 % 256, n / 2^16 % 256, n / 2^8 % 256, n % 256] := by
  unfold writeUint
  rw [if_neg (by omega), if_neg (by omega), if_neg (by omega), if_neg (by omega), if_neg (by omega), if_neg (by omega), if_pos h2]

theorem writeUint_eq8 (n : Nat) (h1 : 2^56 ≤ n) (h2 : n < 2^64) :
    writeUint n =
      [n / 2^56 % 256, n / 2^48 % 256, n / 2^40 % 256, n / 2^32 % 256, n / 2^24 % 256, n / 2^16 % 256, n / 2^8 % 256, n % 256] := by
  unfold writeUint
  rw [if_neg (by omega), if_neg (by omega), if_neg (by omega), if_neg (by omega), if_neg (by omega), if_neg (by omega), if_neg (by omega)]

/-- helper: appending the low byte corresponds to one division step of
`writeUint`. -/
theorem writeUint_shift (n : Nat) (h1 : 256 ≤ n) (h2 : n < 2^64) :
    writeUint n = writeUint (n / 256) ++ [n % 256] := by
  rcases (by omega : (2^8 ≤ n ∧ n < 2^16) ∨ (2^16 ≤ n ∧ n < 2^24) ∨ (2^24 ≤ n ∧ n < 2^32) ∨ (2^32 ≤ n ∧ n < 2^40) ∨ (2^40 ≤ n ∧ n < 2^48) ∨ (2^48 ≤ n ∧ n < 2^56) ∨ (2^56 ≤ n ∧ n < 2^64)) with h | h | h | h | h | h | h
  · rw [writeUint_eq2 n h.1 h.2,
      writeUint_eq1 (n / 256) (by omega)]
    simp only [List.cons_append, List.nil_append, List.cons.injEq,
      eq_self_iff_true, and_true]
    omega
  · rw [writeUint_eq3 n h.1 h.2,
      writeUint_eq2 (n / 256) (by omega) (by omega)]
    simp only [List.cons_append, List.nil_append, List.cons.injEq,
      eq_self_iff_true, and_true]
    omega
  · rw [writeUint_eq4 n h.1 h.2,
      writeUint_eq3 (n / 256) (by omega) (by omega)]
    simp only [List.cons_append, List.nil_append, List.cons.injEq,
      eq_self_iff_true, and_true]
    omega
  · rw [writeUint_eq5 n h.1 h.2,
      writeUint_eq4 (n / 256) (by omega) (by omega)]
    simp only [List.cons_append, List.nil_append, List.cons.injEq,
      eq_self_iff_true, and_true]
    omega
  · rw [writeUint_eq6 n h.1 h.2,
      writeUint_eq5 (n / 256) (by omega) (by omega)]
    simp only [List.cons_append, List.nil_append, List.cons.injEq,
      eq_self_iff_true, and_true]
    omega
  · rw [writeUint_eq7 n h.1 h.2,
      writeUint_eq6 (n / 256) (by omega) (by omega)]
    simp only [List.cons_append, List.nil_append, List.cons.injEq,
      eq_self_iff_true, and_true]
    omega
  · rw [writeUint_eq8 n h.1 h.2,
      writeUint_eq7 (n / 256) (by omega) (by omega)]
    simp only [List.cons_append, List.nil_append, List.cons.injEq,
      eq_self_iff_true, and_true]
    omega

/-- helper: `big.Int.Bytes()` and `numeric.writeUint` produce the same
stripped big-endian bytes for magnitudes that fit a `uint64`. -/
theorem natToBytesBE_eq_writeUint (n : Nat) (h1 : 1 ≤ n) (h2 : n < 2^64) :
    natToBytesBE n = writeUint n := by
  induction n using Nat.strong_induction_on with
  | _ n ih =>
    by_cases hsmall : n < 256
    · rw [natToBytesBE]
      rw [if_neg (by omega)]
      rw [natToBytesBE]
      rw [if_pos (by omega)]
      unfold writeUint
      rw [if_pos (by omega : n < 2^8)]
      simp [Nat.mod_eq_of_lt hsmall]
    · rw [natToBytesBE]
      rw [if_neg (by omega)]
      have hdiv : 1 ≤ n / 256 := by omega
      have hdiv2 : n / 256 < 2^64 := by omega
      have hlt : n / 256 < n := by omega
      rw [ih (n / 256) hlt hdiv hdiv2]
      rw [writeUint_shift n (by omega) h2]

/-! ## Claim C8 -/

/-- helper: Go negation then `uint64` reinterpretation of a negative
`int64` is its absolute value. -/
theorem uint64_negInt64_natAbs (i : Int) (hlo : -(2^63) ≤ i) (hhi : i < 0) :
    uint64ofInt64 (negInt64 i) = i.natAbs := by
  unfold negInt64 uint64ofInt64
  by_cases hmin : i = -(2^63)
  · rw [if_pos hmin, hmin]
    decide
  · rw [if_neg hmin]
    rw [Int.emod_eq_of_lt (by omega) (by omega)]
    omega

/-- helper: the big-integer writer and the standalone signed-integer
writer agree on every negative `int64`. -/
theorem writeBigInt_eq_intWriter (i : Int) (hlo : -(2^63) ≤ i)
    (hhi : i < 0) : writeBigInt i = intWriter i := by
  have hneg : ¬(¬ i < 0 ∧ i < 128) := fun h => absurd hhi h.1
  rw [writeBigInt, if_neg hneg, intWriter, if_pos hhi]
  unfold BigIntToBytes writeNumberBytes
  have hdec : (decide (i < 0)) = true := decide_eq_true hhi
  simp only [hdec]
  rw [uint64_negInt64_natAbs i hlo hhi]
  have h1 : 1 ≤ i.natAbs := by omega
  have h2 : i.natAbs < 2^64 := by omega
  rw [natToBytesBE_eq_writeUint i.natAbs h1 h2]
  rw [smallNumberWriter, if_neg (by simp)]

/-- C8 counterexample: `big.Int(-1)` is not rejected — `bigIntWriter`
encodes it to the two bytes `0xA9 0x01` (NegNumSingle, length 1), the very
same bytes the standalone signed-integer path produces for `int64(-1)`. -/
theorem C8_counterexample :
    writeBigInt (-1) = [0xA9, 0x01] ∧ intWriter (-1) = [0xA9, 0x01] := by
  have h := writeBigInt_eq_intWriter (-1) (by norm_num) (by norm_num)
  have h2 : intWriter (-1) = [0xA9, 0x01] := by decide
  exact ⟨h.trans h2, h2⟩

/-- C8 (amended): encoding a negative big integer is supported, not
rejected: for every `i` with `MinInt64 ≤ i < 0` the big-integer writer
produces exactly the bytes of the standalone signed-integer writer
(`0xA9 0x01` for `-1`). -/
theorem C8_negative_bigint (i : Int) (hlo : -(2^63) ≤ i) (hhi : i < 0) :
    writeBigInt i = intWriter i ∧ intWriter (-1) = [0xA9, 0x01] :=
  ⟨writeBigInt_eq_intWriter i hlo hhi, by decide⟩

/-- C8 witness: the amended theorem at `i = -1`. -/
theorem C8_negative_bigint_witness :
    writeBigInt (-1) = intWriter (-1) ∧ intWriter (-1) = [0xA9, 0x01] :=
  C8_negative_bigint (-1) (by norm_num) (by norm_num)

/-! ## Claim C5 -/

/-- C5 counterexample: a two-byte PosNumSingle payload holding 300 decoded
into an 8-bit destination does not fail — both handlers succeed and store
the truncated value 44. -/
theorem C5_counterexample :
    intHandlerNumber 8 true [0x01, 0x2C] = .ok 44
    ∧ uintHandlerNumber 8 true [0x01, 0x2C] = .ok 44
    ∧ (44 : Int) ≠ 300 := by
  refine ⟨by rfl, by rfl, by norm_num⟩

/-- C5 (amended): the numeric decode handlers reject only payloads longer
than 8 bytes (and negatives for unsigned destinations); a payload within 8
bytes whose magnitude exceeds the destination width is not rejected — the
handlers succeed and store the magnitude truncated to the destination
width (via `SetInt`/`SetUint`), a value different from the wire value. -/
theorem C5_truncation (w : Nat) (hw : w = 8 ∨ w = 16 ∨ w = 32)
    (inputs : List Nat) (hb : ∀ x ∈ inputs, x < 256)
    (hlen : inputs.length ≤ 8)
    (hofl : 2^w ≤ BytesToUint64 inputs)
    (h63 : BytesToUint64 inputs < 2^63) :
    intHandlerNumber w true inputs
        = .ok (setIntTrunc w (BytesToUint64 inputs))
    ∧ setIntTrunc w (BytesToUint64 inputs) ≠ (BytesToUint64 inputs : Int)
    ∧ uintHandlerNumber w true inputs = .ok (BytesToUint64 inputs % 2^w)
    ∧ BytesToUint64 inputs % 2^w ≠ BytesToUint64 inputs := by
  have hpos : BytesToInt64 inputs false = (BytesToUint64 inputs : Int) := by
    unfold BytesToInt64 int64ofUint64 BytesToUint64 at *
    rw [if_pos h63]
    simp
  refine ⟨?_, ?_, ?_, ?_⟩
  · unfold intHandlerNumber
    rw [if_neg (by omega)]
    simp only [Bool.not_true, hpos]
  · have hm := Int.emod_nonneg ((BytesToUint64 inputs : Int) + 2^(w-1))
      (by positivity : ((2:Int)^w) ≠ 0)
    have hm2 := Int.emod_lt_of_pos ((BytesToUint64 inputs : Int) + 2^(w-1))
      (by positivity : (0:Int) < 2^w)
    unfold setIntTrunc
    rcases hw with h | h | h <;> subst h <;>
      (intro hcon
       have : (2^8 : Int) ≤ (BytesToUint64 inputs : Int)
          ∨ (2^16 : Int) ≤ (BytesToUint64 inputs : Int)
          ∨ (2^32 : Int) ≤ (BytesToUint64 inputs : Int) := by
         norm_num at hofl ⊢
         omega
       norm_num at hm hm2 hcon
       omega)
  · unfold uintHandlerNumber
    rw [if_neg (by simp)]
    rw [if_neg (by omega)]
  · have := Nat.mod_lt (BytesToUint64 inputs) (y := 2^w) (by positivity)
    omega

/-- C5 witness: the amended theorem at width 8 and payload `01 2C` (300). -/
theorem C5_truncation_witness :
    intHandlerNumber 8 true [0x01, 0x2C]
        = .ok (setIntTrunc 8 (BytesToUint64 [0x01, 0x2C]))
    ∧ setIntTrunc 8 (BytesToUint64 [0x01, 0x2C])
        ≠ (BytesToUint64 [0x01, 0x2C] : Int)
    ∧ uintHandlerNumber 8 true [0x01, 0x2C]
        = .ok (BytesToUint64 [0x01, 0x2C] % 2^8)
    ∧ BytesToUint64 [0x01, 0x2C] % 2^8 ≠ BytesToUint64 [0x01, 0x2C] :=
  C5_truncation 8 (by norm_num) [0x01, 0x2C] (by decide) (by decide)
    (by decide) (by decide)

/-! ## Claim C10 -/

/-- C10: for every positive length, `ReadBytesFromReader` allocates a
fresh buffer exactly when the passed buffer is nil; for a non-nil buffer
the nil-guard is false, so `buf = buf[:length]` executes, which panics
whenever the capacity is below the requested length instead of
reallocating, and reslices otherwise. -/
theorem C10_buffer_guard (length : Int) (hpos : 0 < length) :
    ReadBytesFromReaderBuf length none = .allocated length.toNat
    ∧ (∀ s : GoSlice,
        ((some s = none ∧ length > (bufLen (some s) : Int)) ↔ False)
        ∧ (ReadBytesFromReaderBuf length (some s)
            = if length ≤ (s.cap : Int) then .resliced length.toNat
              else .panicked)
        ∧ ((s.cap : Int) < length →
            ReadBytesFromReaderBuf length (some s) = .panicked)
        ∧ ReadBytesFromReaderBuf length (some s) ≠ .allocated length.toNat) := by
  refine ⟨?_, fun s => ⟨?_, ?_, ?_, ?_⟩⟩
  · unfold ReadBytesFromReaderBuf
    rw [if_neg (by omega)]
    rw [if_pos ⟨rfl, by simp [bufLen]; omega⟩]
  · simp
  · unfold ReadBytesFromReaderBuf
    rw [if_neg (by omega)]
    rw [if_neg (by simp)]
    simp [bufCap]
  · intro hcap
    unfold ReadBytesFromReaderBuf
    rw [if_neg (by omega)]
    rw [if_neg (by simp)]
    rw [if_neg (by simp [bufCap]; omega)]
  · unfold ReadBytesFromReaderBuf
    rw [if_neg (by omega)]
    rw [if_neg (by simp)]
    split_ifs <;> simp

/-- C10 witness: the theorem at length 3, with the short buffer ⟨1, 1⟩. -/
theorem C10_buffer_guard_witness :
    ReadBytesFromReaderBuf 3 none = .allocated (3 : Int).toNat
    ∧ ReadBytesFromReaderBuf 3 (some ⟨1, 1⟩) = .panicked :=
  ⟨(C10_buffer_guard 3 (by norm_num)).1,
   ((C10_buffer_guard 3 (by norm_num)).2 ⟨1, 1⟩).2.2.1 (by norm_num)⟩

/-! ## Reader primitives (valuereader.go) -/

/-- `ReadBytesFromReader` reading part on a list reader: read exactly `n`
bytes; `n ≤ 0` fails with `ErrLength`, underflow fails with `EOF`. -/
def readBytes (n : Nat) (s : List Nat) : Except DErr (List Nat × List Nat) :=
  if n = 0 then .error .lengthError
  else if s.length < n then .error .eof
  else .ok (s.take n, s.drop n)

/-- `defaultVR.ReadHeader`: read one byte (EOF when exhausted) and parse
it through the header codec. -/
def readHeaderB (s : List Nat) : Except DErr ((TypeHeader × Nat) × List Nat) :=
  match s with
  | [] => .error .eof
  | b :: rest =>
    match ParseRTLHeader b with
    | .error e => .error e
    | .ok th => .ok (th, rest)

/-- `defaultVR.ReadMultiLength`: read the `l` count bytes big-endian, then
fail when the count exceeds what is left of the reader
(`left = readerSize - readCount`, the length of the remaining list for a
length-aware source). -/
def readMultiLength (l : Nat) (s : List Nat) : Except DErr (Nat × List Nat) :=
  match readBytes l s with
  | .error e => .error e
  | .ok (buf, rest) =>
    if rest.length = 0 ∨ BytesToUint64 buf > rest.length then .error .lengthTooBig
    else .ok (BytesToUint64 buf, rest)

/-- `ReadMultiLengthBytesFromReader`: read the count, then that many bytes. -/
def readMultiLengthBytes (l : Nat) (s : List Nat) :
    Except DErr (List Nat × List Nat) :=
  match readMultiLength l s with
  | .error e => .error e
  | .ok (ret, rest) => readBytes ret rest

/-! ## big.Int decoding (`bigIntReaders`, `DecodeBigInt`) -/

/-- `big.Int.SetBytes`: big-endian value of all the bytes. -/
def natOfBytesBE (b : List Nat) : Nat := b.foldl (fun r x => r * 256 + x) 0

/-- `toSmallBigInt` (readers file): read the payload and set the big.Int
from `BytesToInt64`/`BytesToUint64`. -/
def toSmallBigInt (length : Nat) (isNegative : Bool) (s : List Nat) :
    Except DErr (Int × List Nat) :=
  match readBytes length s with
  | .error e => .error e
  | .ok (buf, rest) =>
    if isNegative then .ok (BytesToInt64 buf true, rest)
    else .ok ((bytesToUint buf 8 : Int), rest)

/-- The `bigIntReaders` dispatch table (readers file): inline byte, zero,
small numeric and big numeric headers; any other header is unsupported. -/
def bigIntReader (th : TypeHeader) (length : Nat) (s : List Nat) :
    Except DErr (Int × List Nat) :=
  match th with
  | .singleByte => .ok ((length : Int), s)
  | .zeroValue => .ok (0, s)
  | .posNumSingle => toSmallBigInt length false s
  | .negNumSingle => toSmallBigInt length true s
  | .posBigInt =>
    match readMultiLengthBytes length s with
    | .error e => .error e
    | .ok (buf, rest) => .ok ((natOfBytesBE buf : Int), rest)
  | .negBigInt =>
    match readMultiLengthBytes length s with
    | .error e => .error e
    | .ok (buf, rest) => .ok (-(natOfBytesBE buf : Int), rest)
  | _ => .error .unsupported

/-- `DecodeBigInt` (decode entry points file): read one header and
dispatch to the big.Int readers.  NOTE the faithful translation of the
source: when the header read fails (`err != nil`), the function returns
`nil` — success with the destination untouched (`none`) — instead of the
error. -/
def DecodeBigInt (s : List Nat) : Except DErr (Option Int × List Nat) :=
  match readHeaderB s with
  | .error _ => .ok (none, s)
  | .ok ((th, length), rest) =>
    match bigIntReader th length rest with
    | .error e => .error e
    | .ok (v, rest') => .ok (some v, rest')

/-! ## Decoding into a dynamic/any destination (`toInterfaces`) -/

/-- The dynamic values an interface destination can receive. -/
inductive AnyVal where
  | aNil                     -- zero interface
  | aEmptySlice              -- empty []interface{}
  | aUint (n : Nat)          -- uint64
  | aInt (i : Int)           -- int64
  | aString (s : List Nat)   -- string
deriving DecidableEq, Repr

/-- The primitive-header cases of `toInterfaces` (readers file).  The two
array headers recurse into the general slice decoder and are not part of
this function.  NOTE the faithful translation: in the `THPosNumSingle`,
`THNegNumSingle`, `THStringSingle` and `THStringMulti` branches a failed
payload read makes the source `return nil` — success with the destination
unset (`none`) — instead of the error. -/
def toInterfacesPrim (th : TypeHeader) (length : Nat) (s : List Nat) :
    Except DErr (Option AnyVal × List Nat) :=
  match th with
  | .singleByte => .ok (some (.aUint length), s)
  | .zeroValue => .ok (some .aNil, s)
  | .empty => .ok (some .aEmptySlice, s)
  | .posNumSingle =>
    match readBytes length s with
    | .error _ => .ok (none, s)
    | .ok (b, rest) => .ok (some (.aUint (BytesToUint64 b)), rest)
  | .negNumSingle =>
    match readBytes length s with
    | .error _ => .ok (none, s)
    | .ok (b, rest) => .ok (some (.aInt (BytesToInt64 b true)), rest)
  | .stringSingle =>
    match readBytes length s with
    | .error _ => .ok (none, s)
    | .ok (b, rest) => .ok (some (.aString b), rest)
  | .stringMulti =>
    match readMultiLengthBytes length s with
    | .error _ => .ok (none, s)
    | .ok (b, rest) => .ok (some (.aString b), rest)
  | _ => .error .mismatch

/-! ## Claim C6 -/

/-- C6: the read primitives do fail with EOF on underflow, but the
`DecodeBigInt` entry point and the dynamic/any decoding branches swallow
that failure and return success (`nil` error, destination unset) instead
of aborting with the error; evaluating the embedded code at the failing
inputs shows the divergence the claim (and the spec's policy) forbids. -/
theorem C6_error_swallowed :
    readHeaderB ([] : List Nat) = .error .eof
    ∧ readBytes 1 ([] : List Nat) = .error .eof
    ∧ DecodeBigInt ([] : List Nat) = .ok (none, [])
    ∧ toInterfacesPrim .posNumSingle 1 [] = .ok (none, [])
    ∧ toInterfacesPrim .stringSingle 5 [0x61] = .ok (none, [0x61]) := by
  refine ⟨rfl, rfl, rfl, rfl, rfl⟩

/-! ## The record iterator (nestedhandlers.go `structElement`) -/

/-- A sorted-field-list entry as the record iterator sees it: the declared
field index (the destination slot) and the logical order. -/
structure FieldOrder where
  index : Nat
  order : Int
deriving DecidableEq, Repr

/-- `structElement` state: data size and last processed data index of the
encoded array, the sorted field list and the last processed field index
(both indices start at -1). -/
structure StructElem where
  dataSize : Int
  dataIdx : Int
  fields : List FieldOrder
  fieldIdx : Int
deriving DecidableEq, Repr

/-- The action one `structElement.Element` call requests of the engine. -/
inductive ElemAction where
  | push (fieldListPos : Nat) (destIndex : Nat)
      -- StackPush of the field value `fields[fieldListPos]`
  | skipOne
      -- DataSkip of one encoded element
  | illegalOrder
      -- the illegal-status error
  | popZeroFill (zeroFrom : Nat) (skipLen : Int)
      -- zero-fill fields from list position `zeroFrom` on, StackPop,
      -- and DataSkip of `skipLen` elements (0 = no skip)
deriving DecidableEq, Repr

/-- The common tail of `structElement.Element`: zero
the remaining fields, pop, and skip the remaining data if any. -/
def structElemFinish (s : StructElem) : ElemAction × StructElem :=
  if s.dataIdx < s.dataSize - 1 then
    (.popZeroFill (s.fieldIdx + 1).toNat (s.dataSize - 1 - s.dataIdx), s)
  else
    (.popZeroFill (s.fieldIdx + 1).toNat 0, s)

/-- `structElement.Element` (nestedhandlers.go): one step of the record
iterator, returning the requested action and the updated state. -/
def structElementStep (s : StructElem) : ElemAction × StructElem :=
  if s.fieldIdx + 1 < (s.fields.length : Int) then
    let fo := s.fields.getD (s.fieldIdx + 1).toNat ⟨0, 0⟩
    if s.dataIdx + 1 < s.dataSize then
      if s.dataIdx + 1 = fo.order then
        (.push (s.fieldIdx + 1).toNat fo.index,
         { s with dataIdx := s.dataIdx + 1, fieldIdx := s.fieldIdx + 1 })
      else if s.dataIdx + 1 < fo.order then
        (.skipOne, { s with dataIdx := s.dataIdx + 1 })
      else
        (.illegalOrder, { s with dataIdx := s.dataIdx + 1 })
    else structElemFinish { s with dataIdx := s.dataIdx + 1 }
  else structElemFinish s

/-! ## Claim C3 -/

/-- C3: the record iterator walks the sorted field list and the data
positionally.  With the next field and next data element both in range:
an order above the next data index requests exactly one reader skip and
advances only the data index; an order below it fails with the
illegal-order error; an equal order pushes that field.  Once the field
list or the data is exhausted, the iterator zero-fills every remaining
field (from list position `fieldIdx+1` on) and skips every remaining data
element (`max (dataSize-1-dataIdx) 0` of them) while popping. -/
theorem C3_record_iterator (s : StructElem) :
    (s.fieldIdx + 1 < (s.fields.length : Int) → s.dataIdx + 1 < s.dataSize →
      ((s.fields.getD (s.fieldIdx + 1).toNat ⟨0, 0⟩).order > s.dataIdx + 1 →
        structElementStep s = (.skipOne, { s with dataIdx := s.dataIdx + 1 }))
      ∧ ((s.fields.getD (s.fieldIdx + 1).toNat ⟨0, 0⟩).order < s.dataIdx + 1 →
        (structElementStep s).1 = .illegalOrder)
      ∧ ((s.fields.getD (s.fieldIdx + 1).toNat ⟨0, 0⟩).order = s.dataIdx + 1 →
        structElementStep s =
          (.push (s.fieldIdx + 1).toNat
            (s.fields.getD (s.fieldIdx + 1).toNat ⟨0, 0⟩).index,
           { s with dataIdx := s.dataIdx + 1, fieldIdx := s.fieldIdx + 1 })))
    ∧ (¬ s.fieldIdx + 1 < (s.fields.length : Int) →
        structElementStep s =
          (.popZeroFill (s.fieldIdx + 1).toNat
            (max (s.dataSize - 1 - s.dataIdx) 0), s))
    ∧ (s.fieldIdx + 1 < (s.fields.length : Int) →
        ¬ s.dataIdx + 1 < s.dataSize →
        structElementStep s =
          (.popZeroFill (s.fieldIdx + 1).toNat
            (max (s.dataSize - 1 - (s.dataIdx + 1)) 0),
           { s with dataIdx := s.dataIdx + 1 })) := by
  refine ⟨fun hf hd => ⟨?_, ?_, ?_⟩, ?_, ?_⟩
  · intro hgt
    unfold structElementStep
    rw [if_pos hf, if_pos hd, if_neg (by omega), if_pos (by omega)]
  · intro hlt
    unfold structElementStep
    rw [if_pos hf, if_pos hd, if_neg (by omega), if_neg (by omega)]
  · intro heq
    unfold structElementStep
    rw [if_pos hf, if_pos hd, if_pos (by omega)]
  · intro hf
    unfold structElementStep structElemFinish
    rw [if_neg hf]
    split_ifs with h
    · rw [max_eq_left (by omega)]
    · rw [max_eq_right (by omega)]
  · intro hf hd
    unfold structElementStep structElemFinish
    rw [if_pos hf, if_neg hd]
    split_ifs with h
    · simp only at h ⊢
      rw [max_eq_left (by omega)]
    · simp only at h ⊢
      rw [max_eq_right (by omega)]

/-- C3 witness: the theorem at a concrete iterator state — two fields of
orders 0 and 2, data size 4, freshly initialized — whose next step must
push field 0. -/
theorem C3_record_iterator_witness :
    structElementStep ⟨4, -1, [⟨0, 0⟩, ⟨1, 2⟩], -1⟩
      = (.push 0 0, ⟨4, 0, [⟨0, 0⟩, ⟨1, 2⟩], 0⟩) :=
  ((C3_record_iterator ⟨4, -1, [⟨0, 0⟩, ⟨1, 2⟩], -1⟩).1 (by norm_num)
    (by norm_num)).2.2 (by norm_num)

/-! ## Versioned struct fields (`versionedFields`, part of the type
descriptor) -/

/-- A sorted-field-list entry as `versionedFields` sees it: the logical
order, the version tag, and whether the field's value `IsZero`. -/
structure FieldV where
  order : Nat
  version : Nat
  isZero : Bool
deriving DecidableEq, Repr

/-- The downward loop of `versionedFields`, processing index `i` with the
running `(maxVersion, maxIndex)` state and returning the final
`maxIndex`: whenever the version drops, `(maxVersion, maxIndex)` moves to
the current index; a version-0 state or a non-zero field stops the walk;
a zero field continues downward. -/
def vfLoop (fields : List FieldV) : Nat → Nat → Nat → Nat
  | maxVersion, maxIndex, 0 =>
    let f := fields.getD 0 ⟨0, 0, false⟩
    let mv := if f.version < maxVersion then f.version else maxVersion
    let mi := if f.version < maxVersion then 0 else maxIndex
    if mv = 0 then mi
    else if f.isZero then mi
    else mi
  | maxVersion, maxIndex, (i+1) =>
    let f := fields.getD (i+1) ⟨0, 0, false⟩
    let mv := if f.version < maxVersion then f.version else maxVersion
    let mi := if f.version < maxVersion then (i+1) else maxIndex
    if mv = 0 then mi
    else if f.isZero then vfLoop fields mv mi i
    else mi

/-- `versionedFields` (type descriptor file): keep the whole list when the
last version is 0 or equals the first version; otherwise walk from the
tail and return the emitted field count `fields[maxIndex].order + 1` and
the retained prefix. -/
def versionedFields (fields : List FieldV) : Nat × List FieldV :=
  match fields with
  | [] => (0, [])
  | f0 :: _ =>
    let maxIndex := fields.length - 1
    let maxVersion := (fields.getD maxIndex ⟨0, 0, false⟩).version
    if maxVersion = 0 ∨ maxVersion = f0.version then
      ((fields.getD maxIndex ⟨0, 0, false⟩).order + 1, fields)
    else
      ((fields.getD (vfLoop fields maxVersion maxIndex maxIndex)
          ⟨0, 0, false⟩).order + 1,
       fields.take (vfLoop fields maxVersion maxIndex maxIndex + 1))

/-- The version of the field at list index `i`. -/
def fvVersion (fields : List FieldV) (i : Nat) : Nat :=
  (fields.getD i ⟨0, 0, false⟩).version

/-- The zeroness of the field at list index `i`. -/
def fvIsZero (fields : List FieldV) (i : Nat) : Bool :=
  (fields.getD i ⟨0, 0, false⟩).isZero

/-- Modelled from the claim's words, for the counterexample: "the highest
index k such that either field k's version is 0 or some field at index
> k with the same version has a non-zero value". -/
def claimedCond (fields : List FieldV) (k : Nat) : Bool :=
  (fvVersion fields k == 0)
  || (List.range fields.length).any (fun j =>
       decide (k < j) && (fvVersion fields j == fvVersion fields k)
       && !(fvIsZero fields j))

/-- Modelled from the claim's words: the highest index satisfying
`claimedCond` (0 when none does). -/
def claimedK (fields : List FieldV) : Nat :=
  ((List.range fields.length).filter (claimedCond fields)).foldr max 0

/-- Field `i` is relevant: non-zero valued, of version 0, or of the first
field's version. -/
def fvRelevant (fields : List FieldV) (i : Nat) : Bool :=
  !(fvIsZero fields i) || (fvVersion fields i == 0)
  || (fvVersion fields i == fvVersion fields 0)

/-- Index `j` shares its version group with some relevant field. -/
def fvGroupRelevant (fields : List FieldV) (j : Nat) : Bool :=
  (List.range fields.length).any (fun i =>
    (fvVersion fields i == fvVersion fields j) && fvRelevant fields i)

/-- The highest index whose version group contains a relevant field. -/
def specK (fields : List FieldV) : Nat :=
  ((List.range fields.length).filter (fvGroupRelevant fields)).foldr max 0

/-- The last index of the version group of index `i`. -/
def lastGroup (fields : List FieldV) (i : Nat) : Nat :=
  ((List.range fields.length).filter
    (fun j => fvVersion fields j == fvVersion fields i)).foldr max 0

/-- The concrete 3-field counterexample input for claim C2: orders
0,1,2, versions 0,1,1, where only the middle field is non-zero. -/
def vfExample : List FieldV :=
  [⟨0, 0, true⟩, ⟨1, 1, false⟩, ⟨2, 1, true⟩]

/-! ### Helpers about the maximum of a list of naturals -/

theorem le_foldr_max (l : List Nat) (a : Nat) (h : a ∈ l) :
    a ≤ l.foldr max 0 := by
  induction l with
  | nil => cases h
  | cons x xs ih =>
    rcases List.mem_cons.mp h with h | h
    · subst h; exact le_max_left _ _
    · exact le_trans (ih h) (le_max_right _ _)

theorem foldr_max_le (l : List Nat) (k : Nat) (h : ∀ a ∈ l, a ≤ k) :
    l.foldr max 0 ≤ k := by
  induction l with
  | nil => exact Nat.zero_le k
  | cons x xs ih =>
    simp only [List.foldr_cons]
    exact max_le (h x (by simp)) (ih fun a ha => h a (by simp [ha]))

theorem foldr_max_eq (l : List Nat) (k : Nat) (hmem : k ∈ l)
    (hub : ∀ a ∈ l, a ≤ k) : l.foldr max 0 = k :=
  le_antisymm (foldr_max_le l k hub) (le_foldr_max l k hmem)

/-! ### Helpers about version groups -/

theorem lastGroup_mem (fields : List FieldV) (i : Nat)
    (hi : i < fields.length) :
    lastGroup fields i < fields.length
    ∧ fvVersion fields (lastGroup fields i) = fvVersion fields i := by
  have hne : lastGroup fields i ∈ (List.range fields.length).filter
      (fun j => fvVersion fields j == fvVersion fields i) := by
    unfold lastGroup
    have : ((List.range fields.length).filter
        (fun j => fvVersion fields j == fvVersion fields i)) ≠ [] := by
      intro hcon
      have : i ∈ (List.range fields.length).filter
          (fun j => fvVersion fields j == fvVersion fields i) := by
        simp [List.mem_filter, List.mem_range, hi]
      rw [hcon] at this
      cases this
    -- the foldr max of a nonempty list is an element of the list
    generalize hl : ((List.range fields.length).filter
        (fun j => fvVersion fields j == fvVersion fields i)) = l at *
    clear hl
    induction l with
    | nil => exact absurd rfl this
    | cons x xs ih =>
      by_cases hxs : xs = []
      · subst hxs
        simp
      · simp only [List.foldr_cons]
        rcases Nat.le_total x (xs.foldr max 0) with h | h
        · rw [max_eq_right h]
          exact List.mem_cons_of_mem _ (ih hxs)
        · rw [max_eq_left h]
          exact List.mem_cons_self _ _
  simp only [List.mem_filter, List.mem_range, beq_iff_eq] at hne
  exact ⟨hne.1, hne.2⟩

theorem lastGroup_le (fields : List FieldV) (i j : Nat)
    (hj : j < fields.length) (hv : fvVersion fields j = fvVersion fields i) :
    j ≤ lastGroup fields i := by
  apply le_foldr_max
  simp [List.mem_filter, List.mem_range, hj, hv]

theorem lastGroup_ge (fields : List FieldV) (i : Nat)
    (hi : i < fields.length) : i ≤ lastGroup fields i :=
  lastGroup_le fields i i hi rfl

theorem lastGroup_gt_version (fields : List FieldV) (i j : Nat)
    (hmono : ∀ a b, a ≤ b → b < fields.length →
      fvVersion fields a ≤ fvVersion fields b)
    (hi : i < fields.length) (hj : j < fields.length)
    (hgt : lastGroup fields i < j) :
    fvVersion fields i < fvVersion fields j := by
  have h1 : fvVersion fields i ≤ fvVersion fields j :=
    hmono i j (le_trans (lastGroup_ge fields i hi) (le_of_lt hgt)) hj
  rcases lt_or_eq_of_le h1 with h | h
  · exact h
  · exact absurd (lastGroup_le fields i j hj h.symm) (by omega)

theorem lastGroup_congr (fields : List FieldV) (i i' : Nat)
    (hv : fvVersion fields i = fvVersion fields i') :
    lastGroup fields i = lastGroup fields i' := by
  unfold lastGroup
  congr 1
  apply List.filter_congr
  intro j _
  rw [hv]

theorem lastGroup_last (fields : List FieldV) (hne : 0 < fields.length) :
    lastGroup fields (fields.length - 1) = fields.length - 1 := by
  apply le_antisymm
  · apply foldr_max_le
    intro a ha
    simp only [List.mem_filter, List.mem_range] at ha
    omega
  · exact lastGroup_ge fields _ (by omega)

/-- helper: once every field above `i` is zero with a positive version,
and field `i` itself is relevant, the highest group-relevant index is the
last index of `i`'s version group. -/
theorem specK_eq_lastGroup (fields : List FieldV)
    (hmono : ∀ a b, a ≤ b → b < fields.length →
      fvVersion fields a ≤ fvVersion fields b)
    (i : Nat) (hi : i < fields.length)
    (hsuf : ∀ j, i < j → j < fields.length →
      fvIsZero fields j = true ∧ fvVersion fields j ≠ 0)
    (hrel : fvRelevant fields i = true) :
    specK fields = lastGroup fields i := by
  apply foldr_max_eq
  · simp only [List.mem_filter, List.mem_range]
    refine ⟨(lastGroup_mem fields i hi).1, ?_⟩
    unfold fvGroupRelevant
    rw [List.any_eq_true]
    refine ⟨i, by simp [List.mem_range, hi], ?_⟩
    rw [Bool.and_eq_true, beq_iff_eq]
    exact ⟨(lastGroup_mem fields i hi).2.symm, hrel⟩
  · intro a ha
    simp only [List.mem_filter, List.mem_range] at ha
    obtain ⟨han, hrel'⟩ := ha
    unfold fvGroupRelevant at hrel'
    rw [List.any_eq_true] at hrel'
    obtain ⟨m, hm, hcond⟩ := hrel'
    rw [List.mem_range] at hm
    rw [Bool.and_eq_true, beq_iff_eq] at hcond
    obtain ⟨hvm, hrelm⟩ := hcond
    -- first show the witness's version is at most v i
    have hvm_le : fvVersion fields m ≤ fvVersion fields i := by
      by_cases hcase : m ≤ i
      · exact hmono m i hcase hi
      · -- m > i: it is zero with a positive version, so relevance forces
        -- its version to equal the first field's version, which is ≤ v i
        obtain ⟨hz, hv0⟩ := hsuf m (by omega) hm
        unfold fvRelevant at hrelm
        rw [Bool.or_eq_true, Bool.or_eq_true] at hrelm
        rcases hrelm with (hkill | hkill) | hfirst
        · rw [hz] at hkill
          cases hkill
        · rw [beq_iff_eq] at hkill
          exact absurd hkill hv0
        · rw [beq_iff_eq] at hfirst
          rw [hfirst]
          exact hmono 0 i (Nat.zero_le i) hi
    have hva : fvVersion fields a ≤ fvVersion fields i := hvm ▸ hvm_le
    by_contra hcon
    push_neg at hcon
    exact absurd hva
      (not_le.mpr (lastGroup_gt_version fields i a hmono hi han hcon))

/-- helper: the downward walk of `versionedFields` computes the highest
group-relevant index, provided every field above `i` was walked over
(zero with positive version) and the running state is consistent. -/
theorem vfLoop_spec (fields : List FieldV)
    (hmono : ∀ a b, a ≤ b → b < fields.length →
      fvVersion fields a ≤ fvVersion fields b) :
    ∀ i, i < fields.length →
    (∀ j, i < j → j < fields.length →
      fvIsZero fields j = true ∧ fvVersion fields j ≠ 0) →
    ∀ mv mi,
      ((if fvVersion fields i < mv then fvVersion fields i else mv)
        = fvVersion fields i) →
      ((if fvVersion fields i < mv then i else mi) = lastGroup fields i) →
      vfLoop fields mv mi i = specK fields := by
  intro i
  induction i with
  | zero =>
    intro hi hsuf mv mi hmv hmi
    have hrel : fvRelevant fields 0 = true := by
      unfold fvRelevant
      simp
    rw [specK_eq_lastGroup fields hmono 0 hi hsuf hrel]
    simp only [vfLoop]
    unfold fvVersion at hmv hmi
    split_ifs with h1 <;>
      first
        | (rw [if_pos h1] at hmi; exact hmi)
        | (rw [if_neg h1] at hmi; exact hmi)
  | succ i ih =>
    intro hi hsuf mv mi hmv hmi
    simp only [vfLoop]
    unfold fvVersion at hmv hmi
    rw [hmv, hmi]
    have hfv : (fields.getD (i+1) ⟨0, 0, false⟩).version
        = fvVersion fields (i+1) := rfl
    by_cases hv0 : (fields.getD (i+1) ⟨0, 0, false⟩).version = 0
    · rw [if_pos hv0]
      rw [specK_eq_lastGroup fields hmono (i+1) hi hsuf
        (by unfold fvRelevant; rw [← hfv, hv0]; simp)]
    · rw [if_neg hv0]
      by_cases hz : (fields.getD (i+1) ⟨0, 0, false⟩).isZero = true
      · rw [if_pos hz]
        apply ih (by omega)
        · intro j hj1 hj2
          by_cases hji : j = i + 1
          · subst hji
            exact ⟨hz, by rw [← hfv]; exact hv0⟩
          · exact hsuf j (by omega) hj2
        · -- the state version stays v i: either the version drops to v i
          -- or it already equals it by monotonicity
          have hle : fvVersion fields i ≤ fvVersion fields (i+1) :=
            hmono i (i+1) (by omega) hi
          by_cases hlt2 : fvVersion fields i < fvVersion fields (i+1)
          · rw [hfv, if_pos hlt2]
          · rw [hfv, if_neg hlt2]
            omega
        · by_cases hlt2 : fvVersion fields i < fvVersion fields (i+1)
          · rw [hfv, if_pos hlt2]
            -- the version strictly rises at i+1, so i closes its group
            refine (le_antisymm ?_ (lastGroup_ge fields i (by omega))).symm
            apply foldr_max_le
            intro a ha
            simp only [List.mem_filter, List.mem_range, beq_iff_eq] at ha
            by_contra hcon
            push_neg at hcon
            have : fvVersion fields (i+1) ≤ fvVersion fields a :=
              hmono (i+1) a (by omega) ha.1
            omega
          · rw [hfv, if_neg hlt2]
            have hle : fvVersion fields i ≤ fvVersion fields (i+1) :=
              hmono i (i+1) (by omega) hi
            exact lastGroup_congr fields (i+1) i (by omega)
      · rw [if_neg hz]
        rw [specK_eq_lastGroup fields hmono (i+1) hi hsuf
          (by unfold fvRelevant fvIsZero; rw [Bool.eq_false_iff.mpr hz]; simp)]

/-! ## Claim C2 -/

/-- C2 counterexample: on the field list with versions 0,1,1 where only
the middle field is non-zero, the encoder keeps all three fields and
emits header length `fields[2].order + 1 = 3`, but the claim's
characterization — the highest index whose version is 0 or that is
followed by a non-zero field of the same version — picks index 0 and
emits length `fields[0].order + 1 = 1`. -/
theorem C2_counterexample :
    versionedFields vfExample = (3, vfExample)
    ∧ claimedK vfExample = 0
    ∧ (vfExample.getD (claimedK vfExample) ⟨0, 0, false⟩).order + 1 = 1
    ∧ (1 : Nat) ≠ 3 := by
  refine ⟨by decide, by decide, by decide, by decide⟩

/-- helper: full characterization of `versionedFields` on monotone-version
field lists — the kept set is the prefix up to `specK` and the emitted
count is that field's order plus one. -/
theorem versionedFields_spec (fields : List FieldV) (hne : fields ≠ [])
    (hmono : ∀ a b, a ≤ b → b < fields.length →
      fvVersion fields a ≤ fvVersion fields b) :
    versionedFields fields
      = ((fields.getD (specK fields) ⟨0, 0, false⟩).order + 1,
         fields.take (specK fields + 1)) := by
  rcases fields with _ | ⟨f0, rest⟩
  · exact absurd rfl hne
  · simp only [versionedFields]
    have hn : 0 < (f0 :: rest).length := by simp
    have hv0 : ((f0 :: rest).getD ((f0 :: rest).length - 1)
          ⟨0, 0, false⟩).version
        = fvVersion (f0 :: rest) ((f0 :: rest).length - 1) := rfl
    by_cases hearly :
        ((f0 :: rest).getD ((f0 :: rest).length - 1) ⟨0, 0, false⟩).version = 0
        ∨ ((f0 :: rest).getD ((f0 :: rest).length - 1) ⟨0, 0, false⟩).version
            = f0.version
    · rw [if_pos hearly]
      have hk : specK (f0 :: rest) = (f0 :: rest).length - 1 := by
        apply foldr_max_eq
        · simp only [List.mem_filter, List.mem_range]
          refine ⟨by omega, ?_⟩
          unfold fvGroupRelevant
          rw [List.any_eq_true]
          refine ⟨(f0 :: rest).length - 1,
            by simp only [List.mem_range]; omega, ?_⟩
          rw [Bool.and_eq_true, beq_iff_eq]
          refine ⟨rfl, ?_⟩
          unfold fvRelevant
          rw [Bool.or_eq_true, Bool.or_eq_true]
          rcases hearly with h | h
          · exact Or.inl (Or.inr (by rw [beq_iff_eq]; exact h))
          · refine Or.inr (by rw [beq_iff_eq]; exact h)
        · intro a ha
          simp only [List.mem_filter, List.mem_range] at ha
          omega
      rw [hk]
      have hlen : (f0 :: rest).length - 1 + 1 = (f0 :: rest).length := by
        omega
      rw [hlen, List.take_length]
    · rw [if_neg hearly]
      rw [vfLoop_spec (f0 :: rest) hmono ((f0 :: rest).length - 1) (by omega)
        (fun j hj1 hj2 => absurd hj2 (by omega)) _ _
        (by rw [hv0, if_neg (lt_irrefl _)])
        (by rw [hv0, if_neg (lt_irrefl _)]
            exact (lastGroup_last (f0 :: rest) hn).symm)]

/-- C2 (amended): for every non-empty order-sorted field list with weakly
monotone versions, the emitted field set is the prefix `0..k` of the list
and the emitted array header length is `fields[k].order + 1`, where `k`
is the highest index whose version group contains a relevant field — one
that is non-zero, or has version 0, or shares the first field's version
(the whole version group of the last relevant field is kept). -/
theorem C2_versioned_fields (fields : List FieldV) (hne : fields ≠ [])
    (hmono : ∀ a b, a ≤ b → b < fields.length →
      fvVersion fields a ≤ fvVersion fields b) :
    versionedFields fields
      = ((fields.getD (specK fields) ⟨0, 0, false⟩).order + 1,
         fields.take (specK fields + 1)) :=
  versionedFields_spec fields hne hmono

/-- C2 witness: the amended theorem at the concrete 3-field input. -/
theorem C2_versioned_fields_witness :
    versionedFields vfExample
      = ((vfExample.getD (specK vfExample) ⟨0, 0, false⟩).order + 1,
         vfExample.take (specK vfExample + 1)) :=
  C2_versioned_fields vfExample (by decide)
    (by intro a b hab hb
        have hb3 : b < 3 := by simpa [vfExample] using hb
        interval_cases b <;> interval_cases a <;> decide)

/-! ## A universe of Go values for the round-trip claim

The types covered: `uint64`, `int64`, `bool`, `string`, `[]byte`,
`float64`, slices of a covered type, and structs whose sorted field list
carries `(order, version, field type)` triples.  Values mirror the Go
values; `none` models a nil slice. -/

inductive RType where
  | tUint : RType
  | tInt : RType
  | tBool : RType
  | tString : RType
  | tByteSlice : RType
  | tF64 : RType
  | tSlice (elem : RType) : RType
  | tStruct (fields : List (Nat × Nat × RType)) : RType

inductive RVal where
  | vUint (n : Nat) : RVal
  | vInt (i : Int) : RVal
  | vBool (b : Bool) : RVal
  | vString (s : List Nat) : RVal
  | vBytes (s : Option (List Nat)) : RVal
  | vF64 (bits : Nat) : RVal
  | vSlice (xs : Option (List RVal)) : RVal
  | vStruct (fields : List (Nat × Nat × RVal)) : RVal

/-- `reflect.Value.IsZero`: zero numeric, false, empty string, nil slice,
all-fields-zero struct.  A float is zero exactly when its bit pattern is
zero. -/
def isZeroR : RVal → Bool
  | .vUint n => n == 0
  | .vInt i => i == 0
  | .vBool b => !b
  | .vString s => s.isEmpty
  | .vBytes s => s.isNone
  | .vF64 bits => bits == 0
  | .vSlice xs => xs.isNone
  | .vStruct fields => fields.attach.all (fun f => isZeroR f.1.2.2)
decreasing_by
  have h1 := List.sizeOf_lt_of_mem f.2
  rcases f with ⟨⟨o, ver, x⟩, hmem⟩
  simp at h1 ⊢
  omega

/-- `reflect.Zero` of a covered type. -/
def zeroOf : RType → RVal
  | .tUint => .vUint 0
  | .tInt => .vInt 0
  | .tBool => .vBool false
  | .tString => .vString []
  | .tByteSlice => .vBytes none
  | .tF64 => .vF64 0
  | .tSlice _ => .vSlice none
  | .tStruct fields =>
    .vStruct (fields.attach.map (fun f => (f.1.1, f.1.2.1, zeroOf f.1.2.2)))
decreasing_by
  have h1 := List.sizeOf_lt_of_mem f.2
  rcases f with ⟨⟨o, ver, t⟩, hmem⟩
  simp at h1 ⊢
  omega

/-- The value-tree depth, bounding the recursion depth of a decode. -/
def depthR : RVal → Nat
  | .vSlice (some xs) => 1 + xs.attach.foldr (fun x acc => max (depthR x.1) acc) 0
  | .vStruct fields =>
    1 + fields.attach.foldr (fun f acc => max (depthR f.1.2.2) acc) 0
  | _ => 1
decreasing_by
  · have h1 := List.sizeOf_lt_of_mem x.2
    rcases x with ⟨x, hmem⟩
    simp at h1 ⊢
    omega
  · have h1 := List.sizeOf_lt_of_mem f.2
    rcases f with ⟨⟨o, ver, x⟩, hmem⟩
    simp at h1 ⊢
    omega

/-! ### float64 bit-level predicates (math.Float64bits world) -/

/-- NaN: exponent all ones, non-zero mantissa. -/
def isNaN64 (bits : Nat) : Bool :=
  ((bits / 2^52) % 2^11 == 0x7FF) && (bits % 2^52 != 0)

/-- `f < 0` for the float64 with the given bits: sign set, not -0, not NaN. -/
def ltZeroF64 (bits : Nat) : Bool :=
  decide (2^63 < bits) && !isNaN64 bits

/-- `f > 0`: sign clear, not +0, not NaN. -/
def gtZeroF64 (bits : Nat) : Bool :=
  decide (0 < bits) && decide (bits < 2^63) && !isNaN64 bits

/-- NaN for float32 bits. -/
def isNaN32 (bits : Nat) : Bool :=
  ((bits / 2^23) % 2^8 == 0xFF) && (bits % 2^23 != 0)

/-- `f > 0` for the float32 with the given bits. -/
def gtZeroF32 (bits : Nat) : Bool :=
  decide (0 < bits) && decide (bits < 2^31) && !isNaN32 bits

/-- `float64(float32frombits b)`: the exact widening conversion at the bit
level (zeros keep the sign; subnormals normalize; infinities and NaNs map
to exponent 2047 with the mantissa payload shifted). -/
def widen32to64 (bits : Nat) : Nat :=
  let s := bits / 2^31
  let e := (bits / 2^23) % 2^8
  let m := bits % 2^23
  if e = 0 then
    if m = 0 then s * 2^63
    else
      s * 2^63 + (Nat.log2 m + 1 + 873) * 2^52
        + (m - 2^(Nat.log2 m)) * 2^(52 - Nat.log2 m)
  else if e = 255 then s * 2^63 + 2047 * 2^52 + m * 2^29
  else s * 2^63 + (e - 127 + 1023) * 2^52 + m * 2^29

/-- `numeric.BytesToFloat64` at the bit level: reinterpret the last 8
bytes, negating (flipping the sign bit) when the value is positive and
the negative flag is set. -/
def BytesToFloat64bits (b : List Nat) (isNegative : Bool) : Nat :=
  if isNegative && gtZeroF64 (BytesToUint64 b) then 2^63 + BytesToUint64 b
  else BytesToUint64 b

/-- `numeric.BytesToFloat32` at the bit level (last 4 bytes); negating a
positive float32 sets its sign bit. -/
def BytesToFloat32bits (b : List Nat) (isNegative : Bool) : Nat :=
  if isNegative && gtZeroF32 (bytesToUint b 4) then 2^31 + bytesToUint b 4
  else bytesToUint b 4

/-- `float64Writer` at the bit level: capture the sign (`f < 0`), negate
(clear the sign bit of a negative float), and hand the magnitude bits to
`smallNumberWriter`. -/
def float64Writer (bits : Nat) : List Nat :=
  if ltZeroF64 bits then smallNumberWriter true (bits - 2^63)
  else smallNumberWriter false bits

/-- `bytesWriter` (writers file) for a non-nil byte sequence: empty →
Empty sentinel, a single small byte → itself, otherwise string header
plus the bytes. -/
def bytesWriterNN (bs : List Nat) : List Nat :=
  if bs.length = 0 then [0x82]
  else if bs.length = 1 ∧ bs.getD 0 0 ≤ 127 then bs
  else headMakerString bs.length ++ bs

/-- `stringWriter`: the empty string is the Zero sentinel, anything else
is `bytesWriter` of the bytes. -/
def stringWriter (s : List Nat) : List Nat :=
  if s.length = 0 then [0x80] else bytesWriterNN s

/-- `byteSliceWriter`/`bytesWriter`: nil is the Zero sentinel. -/
def byteSliceWriter : Option (List Nat) → List Nat
  | none => [0x80]
  | some bs => bytesWriterNN bs

inductive EErr where
  | nestingOverflow
deriving DecidableEq, Repr

/-- The struct meta data `versionedFields` consumes: order, version and
zeroness of each field of the value. -/
def structMeta (fvs : List (Nat × Nat × RVal)) : List FieldV :=
  fvs.map (fun f => ⟨f.1, f.2.1, isZeroR f.2.2⟩)

mutual
/-- `valueWriter0` restricted to the covered universe: nesting check,
then kind dispatch to the scalar writers, `arrayWriter0`/`sliceWriter0`
for slices and `structWriter0` (with `versionedFields`) for structs. -/
def encodeV (v : RVal) (nesting : Nat) : Except EErr (List Nat) :=
  if nesting > 100 then .error .nestingOverflow
  else
    match v with
    | .vUint n => .ok (smallNumberWriter false n)
    | .vInt i => .ok (intWriter i)
    | .vBool b => .ok (if b then [0x81] else [0x80])
    | .vString s => .ok (stringWriter s)
    | .vBytes s => .ok (byteSliceWriter s)
    | .vF64 bits => .ok (float64Writer bits)
    | .vSlice none => .ok [0x80]
    | .vSlice (some xs) =>
      if xs.length = 0 then .ok [0x82]
      else if 100 ≤ nesting then .error .nestingOverflow
      else
        match sliceElemsWriter xs (nesting + 1) with
        | .error e => .error e
        | .ok body => .ok (headMakerArray xs.length ++ body)
    | .vStruct fvs =>
      if fvs.length = 0 then .ok [0x80]
      else if 100 ≤ nesting then .error .nestingOverflow
      else
        match structFieldsWriter (versionedFields (structMeta fvs)).2.length
            fvs (-1) (nesting + 1) with
        | .error e => .error e
        | .ok body =>
          .ok (headMakerArray (versionedFields (structMeta fvs)).1 ++ body)
termination_by (sizeOf v, 1)

/-- The element loop of `arrayWriter0`. -/
def sliceElemsWriter (xs : List RVal) (nesting : Nat) :
    Except EErr (List Nat) :=
  match xs with
  | [] => .ok []
  | x :: rest =>
    match encodeV x nesting with
    | .error e => .error e
    | .ok bs =>
      match sliceElemsWriter rest nesting with
      | .error e => .error e
      | .ok tl => .ok (bs ++ tl)
termination_by (sizeOf xs, 0)

/-- The field loop of `structWriter0`: `count` kept fields, zero
placeholders at the skipped orders. -/
def structFieldsWriter (count : Nat) (fs : List (Nat × Nat × RVal))
    (order : Int) (nesting : Nat) : Except EErr (List Nat) :=
  match count, fs with
  | 0, _ => .ok []
  | _+1, [] => .ok []
  | c+1, (o, _, x) :: rest =>
    match encodeV x nesting with
    | .error e => .error e
    | .ok bs =>
      match structFieldsWriter c rest o nesting with
      | .error e => .error e
      | .ok tl =>
        .ok ((if (o : Int) > order + 1 then
                List.replicate ((o : Int) - order - 1).toNat 0x80
              else []) ++ bs ++ tl)
termination_by (sizeOf fs, 0)
end

/-! ## The decoder (`valueReader0` and friends, readers file)

The destination of every decode below is the fresh zero value of its
type, as the `Unmarshal` entry point creates it; `reflect` reads of the
prior destination state (`checkSlice0`'s capacity probe) therefore
resolve to fresh allocation. -/

/-- helper: a successful `readBytes` leaves a suffix no longer than its
input. -/
theorem readBytes_length_le (n : Nat) (s buf rest : List Nat)
    (h : readBytes n s = .ok (buf, rest)) : rest.length ≤ s.length := by
  unfold readBytes at h
  split_ifs at h
  all_goals try exact Except.noConfusion h
  simp only [Except.ok.injEq, Prod.mk.injEq] at h
  obtain ⟨-, hrest⟩ := h
  subst hrest
  simp

/-- helper: a successful `readMultiLength` leaves a suffix no longer than
its input. -/
theorem readMultiLength_length_le (l : Nat) (s : List Nat) (ret : Nat)
    (rest : List Nat) (h : readMultiLength l s = .ok (ret, rest)) :
    rest.length ≤ s.length := by
  unfold readMultiLength at h
  cases hrb : readBytes l s with
  | error e =>
    rw [hrb] at h
    exact Except.noConfusion h
  | ok p =>
    obtain ⟨buf, r0⟩ := p
    rw [hrb] at h
    dsimp only at h
    split_ifs at h
    simp only [Except.ok.injEq, Prod.mk.injEq] at h
    obtain ⟨-, hr⟩ := h
    subst hr
    exact readBytes_length_le l s buf r0 hrb

/-- One frame of `defaultVR.Skip`'s explicit header stack: the header,
its value type, its size (element count for nested headers, payload byte
count otherwise) and the number of elements already visited (the
source's `index + 1`, so the initial `-1` is `0`). -/
structure HeaderStackF where
  th : TypeHeader
  vt : THVT
  size : Nat
  idx : Nat
deriving DecidableEq, Repr

/-- `readAndPush` of `defaultVR.Skip`: read one header, resolve a
multi-header's element count, and build the new stack frame.  The suffix
carries the proof that at least the header byte was consumed. -/
def skipReadHeader (s : List Nat) :
    Except DErr (HeaderStackF × {t : List Nat // t.length < s.length}) :=
  match s with
  | [] => .error .eof
  | b :: rest =>
    match ParseRTLHeader b with
    | .error e => .error e
    | .ok (th, length) =>
      match (headerTypeMap th).T with
      | .byte => .ok (⟨th, .byte, length, 0⟩, ⟨rest, by simp⟩)
      | .single => .ok (⟨th, .single, length, 0⟩, ⟨rest, by simp⟩)
      | .multi =>
        match hm : readMultiLength length rest with
        | .error e => .error e
        | .ok (ml, rest2) =>
          .ok (⟨th, .multi, ml, 0⟩,
            ⟨rest2, by
              have hle := readMultiLength_length_le length rest ml rest2 hm
              simp only [List.length_cons]
              omega⟩)

/-- The loop of `defaultVR.Skip`: a stack machine over the remaining
bytes.  A nested frame whose elements are exhausted BREAKS out of the
whole loop (faithful to the source's `break`, which returns without
popping the outer frames); a payload frame drops its bytes (`_skip`,
EOF on underflow); an inline-byte frame carries no payload. -/
def skipLoop (stack : List HeaderStackF) (s : List Nat) :
    Except DErr (List Nat) :=
  match stack with
  | [] => .ok s
  | top :: rest =>
    if (headerTypeMap top.th).X then
      if top.size ≤ top.idx then .ok s
      else
        match skipReadHeader s with
        | .error e => .error e
        | .ok (child, ⟨s2, hs2⟩) =>
          skipLoop (child :: ⟨top.th, top.vt, top.size, top.idx + 1⟩ :: rest) s2
    else
      match top.vt with
      | .byte => skipLoop rest s
      | _ =>
        if s.length < top.size then .error .eof
        else skipLoop rest (s.drop top.size)
termination_by 2 * s.length + stack.length
decreasing_by
  · simp only [List.length_cons]
    omega
  · simp only [List.length_cons]
    omega
  · simp only [List.length_cons, List.length_drop]
    omega

/-- `defaultVR.Skip` (valuereader.go): skip exactly one encoded element,
returning the remaining suffix. -/
def skipValue (s : List Nat) : Except DErr (List Nat) :=
  match skipReadHeader s with
  | .error e => .error e
  | .ok (frame, s2) => skipLoop [frame] s2.1

/-- `toFloat` (readers file) at the bit level: read the payload; a 4-byte
payload decodes through `BytesToFloat32` and is widened to float64,
anything else through `BytesToFloat64`. -/
def toFloatD (length : Nat) (isNegative : Bool) (s : List Nat) :
    Except DErr (Nat × List Nat) :=
  match readBytes length s with
  | .error e => .error e
  | .ok (buf, rest) =>
    if length = 4 then
      .ok (widen32to64 (BytesToFloat32bits buf isNegative), rest)
    else .ok (BytesToFloat64bits buf isNegative, rest)

/-- The `intReaders` dispatch table (readers file) on an `int64`
destination; a header without an entry is the `typedReader0` type
mismatch error. -/
def intReadersD (th : TypeHeader) (length : Nat) (s : List Nat) :
    Except DErr (Int × List Nat) :=
  match th with
  | .singleByte => .ok ((length : Int), s)
  | .zeroValue => .ok (0, s)
  | .posNumSingle =>
    match readBytes length s with
    | .error e => .error e
    | .ok (buf, rest) => .ok (BytesToInt64 buf false, rest)
  | .negNumSingle =>
    match readBytes length s with
    | .error e => .error e
    | .ok (buf, rest) => .ok (BytesToInt64 buf true, rest)
  | _ => .error .mismatch

/-- The `uintReaders` dispatch table (readers file) on a `uint64`
destination. -/
def uintReadersD (th : TypeHeader) (length : Nat) (s : List Nat) :
    Except DErr (Nat × List Nat) :=
  match th with
  | .singleByte => .ok (length, s)
  | .zeroValue => .ok (0, s)
  | .posNumSingle =>
    match readBytes length s with
    | .error e => .error e
    | .ok (buf, rest) => .ok (BytesToUint64 buf, rest)
  | _ => .error .mismatch

/-- The `floatReaders` dispatch table (readers file) on a `float64`
destination, at the bit level; the inline byte goes through
`ByteToFloat64(byte(length), false)`. -/
def floatReadersD (th : TypeHeader) (length : Nat) (s : List Nat) :
    Except DErr (Nat × List Nat) :=
  match th with
  | .singleByte => .ok (length % 256, s)
  | .zeroValue => .ok (0, s)
  | .posNumSingle => toFloatD length false s
  | .negNumSingle => toFloatD length true s
  | _ => .error .mismatch

/-- The `boolReaders` dispatch table (readers file). -/
def boolReadersD (th : TypeHeader) (length : Nat) (s : List Nat) :
    Except DErr (Bool × List Nat) :=
  match th with
  | .zeroValue => .ok (false, s)
  | .thTrue => .ok (true, s)
  | _ => .error .mismatch

/-- The `stringReaders` dispatch table (readers file): inline byte, zero,
and the two string headers. -/
def stringReadersD (th : TypeHeader) (length : Nat) (s : List Nat) :
    Except DErr (List Nat × List Nat) :=
  match th with
  | .singleByte => .ok ([length % 256], s)
  | .zeroValue => .ok (([] : List Nat), s)
  | .stringSingle =>
    match readBytes length s with
    | .error e => .error e
    | .ok (buf, rest) => .ok (buf, rest)
  | .stringMulti =>
    match readMultiLength length s with
    | .error e => .error e
    | .ok (l, rest) =>
      match readBytes l rest with
      | .error e => .error e
      | .ok (buf, rest2) => .ok (buf, rest2)
  | _ => .error .mismatch

/-- `toArray0` specialised to a byte-slice destination: each element goes
through `valueReader0` into a `uint8`, i.e. one header read, the nesting
check, the `uintReaders` table and the truncating
`reflect.Value.SetUint`. -/
def decodeByteLoop (count : Nat) (nesting : Nat) (s : List Nat) :
    Except DErr (List Nat × List Nat) :=
  match count with
  | 0 => .ok ([], s)
  | c+1 =>
    match readHeaderB s with
    | .error e => .error e
    | .ok ((th, length), rest) =>
      if nesting > 100 then .error .nestingOverflow
      else
        match uintReadersD th length rest with
        | .error e => .error e
        | .ok (n, rest2) =>
          match decodeByteLoop c nesting rest2 with
          | .error e => .error e
          | .ok (ns, rest3) => .ok (n % 256 :: ns, rest3)

mutual
/-- `valueReader0` (readers file): read one header and dispatch through
`valueReader1`. -/
def valueReader0D (t : RType) (nesting : Nat) (s : List Nat) :
    Except DErr (RVal × List Nat) :=
  match readHeaderB s with
  | .error e => .error e
  | .ok ((th, length), rest) => valueReader1D t th length nesting rest
termination_by (sizeOf t, 1, 0)

/-- `valueReader1` (readers file): nesting check, then dispatch on the
destination kind and the header.  Primitive kinds go through the reader
tables; a slice destination handles the inline-byte, zero, empty, string
and array headers (`singleByteToSlice0`, `stringSingleToSlice0`,
`stringMultiToSlice0`, `arraySingleToSlice0`, `arrayMultiToSlice0`); a
struct destination handles zero and the two array headers
(`toStructs`). -/
def valueReader1D (t : RType) (th : TypeHeader) (length : Nat)
    (nesting : Nat) (s : List Nat) : Except DErr (RVal × List Nat) :=
  if nesting > 100 then .error .nestingOverflow
  else
    match t with
    | .tUint =>
      match uintReadersD th length s with
      | .error e => .error e
      | .ok (n, rest) => .ok (.vUint n, rest)
    | .tInt =>
      match intReadersD th length s with
      | .error e => .error e
      | .ok (i, rest) => .ok (.vInt i, rest)
    | .tBool =>
      match boolReadersD th length s with
      | .error e => .error e
      | .ok (b, rest) => .ok (.vBool b, rest)
    | .tString =>
      match stringReadersD th length s with
      | .error e => .error e
      | .ok (cs, rest) => .ok (.vString cs, rest)
    | .tF64 =>
      match floatReadersD th length s with
      | .error e => .error e
      | .ok (bits, rest) => .ok (.vF64 bits, rest)
    | .tByteSlice =>
      match th with
      | .singleByte =>
        if nesting + 1 > 100 then .error .nestingOverflow
        else .ok (.vBytes (some [length % 256]), s)
      | .zeroValue => .ok (.vBytes none, s)
      | .empty => .ok (.vBytes (some []), s)
      | .stringSingle =>
        match readBytes length s with
        | .error e => .error e
        | .ok (buf, rest) => .ok (.vBytes (some buf), rest)
      | .stringMulti =>
        match readMultiLength length s with
        | .error e => .error e
        | .ok (l, rest) =>
          match readBytes l rest with
          | .error e => .error e
          | .ok (buf, rest2) => .ok (.vBytes (some buf), rest2)
      | .arraySingle =>
        match decodeByteLoop length (nesting + 1) s with
        | .error e => .error e
        | .ok (ns, rest) => .ok (.vBytes (some ns), rest)
      | .arrayMulti =>
        match readMultiLength length s with
        | .error e => .error e
        | .ok (l, rest) =>
          match decodeByteLoop l (nesting + 1) rest with
          | .error e => .error e
          | .ok (ns, rest2) => .ok (.vBytes (some ns), rest2)
      | _ => .error .unsupported
    | .tSlice elem =>
      match th with
      | .singleByte =>
        match valueReader1D elem .singleByte length (nesting + 1) s with
        | .error e => .error e
        | .ok (v, rest) => .ok (.vSlice (some [v]), rest)
      | .zeroValue => .ok (.vSlice none, s)
      | .empty => .ok (.vSlice (some []), s)
      | .stringSingle =>
        match readBytes length s with
        | .error e => .error e
        | .ok (buf, rest) =>
          match decodeString2Arr elem buf nesting rest with
          | .error e => .error e
          | .ok (vs, rest2) => .ok (.vSlice (some vs), rest2)
      | .stringMulti =>
        match readMultiLength length s with
        | .error e => .error e
        | .ok (l, rest) =>
          match readBytes l rest with
          | .error e => .error e
          | .ok (buf, rest2) =>
            match decodeString2Arr elem buf nesting rest2 with
            | .error e => .error e
            | .ok (vs, rest3) => .ok (.vSlice (some vs), rest3)
      | .arraySingle =>
        match decodeListLoop elem length (nesting + 1) s with
        | .error e => .error e
        | .ok (vs, rest) => .ok (.vSlice (some vs), rest)
      | .arrayMulti =>
        match readMultiLength length s with
        | .error e => .error e
        | .ok (l, rest) =>
          match decodeListLoop elem l (nesting + 1) rest with
          | .error e => .error e
          | .ok (vs, rest2) => .ok (.vSlice (some vs), rest2)
      | _ => .error .unsupported
    | .tStruct fields =>
      match th with
      | .zeroValue => .ok (zeroOf (.tStruct fields), s)
      | .arraySingle =>
        match decodeStructLoop fields length 0 (nesting + 1) s with
        | .error e => .error e
        | .ok (fvs, rest) => .ok (.vStruct fvs, rest)
      | .arrayMulti =>
        match readMultiLength length s with
        | .error e => .error e
        | .ok (l, rest) =>
          match decodeStructLoop fields l 0 (nesting + 1) rest with
          | .error e => .error e
          | .ok (fvs, rest2) => .ok (.vStruct fvs, rest2)
      | _ => .error .unsupported
termination_by (sizeOf t, 0, 0)

/-- The element loop of `toArray0` on a slice destination sized by
`checkSlice0`: `count` elements through `valueReader0`. -/
def decodeListLoop (elem : RType) (count : Nat) (nesting : Nat)
    (s : List Nat) : Except DErr (List RVal × List Nat) :=
  match count with
  | 0 => .ok ([], s)
  | c+1 =>
    match valueReader0D elem nesting s with
    | .error e => .error e
    | .ok (v, s2) =>
      match decodeListLoop elem c nesting s2 with
      | .error e => .error e
      | .ok (vs, s3) => .ok (v :: vs, s3)
termination_by (sizeOf elem, 3, count)

/-- `stringToArray` (readers file) on a non-byte element type: each byte
of the read string becomes one element decoded as an inline byte
(`valueReader1(THSingleByte, buf[i], …, nesting+1)`). -/
def decodeString2Arr (elem : RType) (buf : List Nat) (nesting : Nat)
    (s : List Nat) : Except DErr (List RVal × List Nat) :=
  match buf with
  | [] => .ok ([], s)
  | b :: bs =>
    match valueReader1D elem .singleByte b (nesting + 1) s with
    | .error e => .error e
    | .ok (v, s2) =>
      match decodeString2Arr elem bs nesting s2 with
      | .error e => .error e
      | .ok (vs, s3) => .ok (v :: vs, s3)
termination_by (sizeOf elem, 3, buf.length)

/-- The main loop of `toStruct0` (readers file): `count` remaining data
elements at data index `i`, walking the sorted field list.  A field whose
order matches the index is decoded; an index below the next order skips
one encoded element; an index above it is the illegal-status error.
When the fields run out first the loop breaks, leaving the remaining
data unread; when the data runs out first the remaining fields are
zero-filled. -/
def decodeStructLoop (fs : List (Nat × Nat × RType)) (count : Nat)
    (i : Nat) (nesting : Nat) (s : List Nat) :
    Except DErr (List (Nat × Nat × RVal) × List Nat) :=
  match count, fs with
  | _, [] => .ok ([], s)
  | 0, fs => zeroFillLoop fs nesting s
  | c+1, (o, ver, ft) :: rest =>
    if i = o then
      match valueReader0D ft nesting s with
      | .error e => .error e
      | .ok (v, s2) =>
        match decodeStructLoop rest c (i+1) nesting s2 with
        | .error e => .error e
        | .ok (fvs, s3) => .ok ((o, ver, v) :: fvs, s3)
    else if i < o then
      match skipValue s with
      | .error e => .error e
      | .ok s2 => decodeStructLoop ((o, ver, ft) :: rest) c (i+1) nesting s2
    else .error .decodeErr
termination_by (sizeOf fs, 3, count)

/-- The zero-fill tail of `toStruct0`: each remaining field goes through
`valueReader1(THZeroValue, 0, …)`. -/
def zeroFillLoop (fs : List (Nat × Nat × RType)) (nesting : Nat)
    (s : List Nat) : Except DErr (List (Nat × Nat × RVal) × List Nat) :=
  match fs with
  | [] => .ok ([], s)
  | (o, ver, ft) :: rest =>
    match valueReader1D ft .zeroValue 0 nesting s with
    | .error e => .error e
    | .ok (v, s2) =>
      match zeroFillLoop rest nesting s2 with
      | .error e => .error e
      | .ok (fvs, s3) => .ok ((o, ver, v) :: fvs, s3)
termination_by (sizeOf fs, 2, 0)
end

mutual
/-- Well-typedness of a value at a covered type, carrying the Go-side
range facts: `uint64`/`int64` ranges, string/byte-slice entries are
bytes, lengths fit the 8-byte wire counters, and struct field lists are
order-sorted with weakly monotone versions — what `structFields`
guarantees for every struct type it accepts. -/
inductive Typed : RType → RVal → Prop where
  | uint (n : Nat) (h : n < 2^64) : Typed .tUint (.vUint n)
  | int (i : Int) (h1 : -(2^63) ≤ i) (h2 : i < 2^63) : Typed .tInt (.vInt i)
  | bool (b : Bool) : Typed .tBool (.vBool b)
  | str (s : List Nat) (h : ∀ x ∈ s, x < 256) (hlen : s.length < 2^64) :
      Typed .tString (.vString s)
  | bytesNil : Typed .tByteSlice (.vBytes none)
  | bytes (s : List Nat) (h : ∀ x ∈ s, x < 256) (hlen : s.length < 2^64) :
      Typed .tByteSlice (.vBytes (some s))
  | f64 (bits : Nat) (h : bits < 2^64) : Typed .tF64 (.vF64 bits)
  | sliceNil (elem : RType) : Typed (.tSlice elem) (.vSlice none)
  | slice (elem : RType) (xs : List RVal) (hlen : xs.length < 2^64)
      (h : TypedList elem xs) : Typed (.tSlice elem) (.vSlice (some xs))
  | struct (tfs : List (Nat × Nat × RType))
      (vfs : List (Nat × Nat × RVal)) (h : TypedFields tfs vfs)
      (hord : List.Chain' (fun a b => a.1 < b.1) tfs)
      (hver : List.Chain' (fun a b => a.2.1 ≤ b.2.1) tfs)
      (hbound : ∀ f ∈ tfs, f.1 + 1 < 2^64) :
      Typed (.tStruct tfs) (.vStruct vfs)

/-- All elements of a list are typed at the element type. -/
inductive TypedList : RType → List RVal → Prop where
  | nil (elem : RType) : TypedList elem []
  | cons (elem : RType) (x : RVal) (xs : List RVal) :
      Typed elem x → TypedList elem xs → TypedList elem (x :: xs)

/-- A struct value's field list mirrors the type's sorted field list:
same orders, same versions, pointwise typed values. -/
inductive TypedFields :
    List (Nat × Nat × RType) → List (Nat × Nat × RVal) → Prop where
  | nil : TypedFields [] []
  | cons (o ver : Nat) (t : RType) (v : RVal)
      (tfs : List (Nat × Nat × RType)) (vfs : List (Nat × Nat × RVal)) :
      Typed t v → TypedFields tfs vfs →
      TypedFields ((o, ver, t) :: tfs) ((o, ver, v) :: vfs)
end

/-- The float64 magnitude actually written: the sign bit of a negative
value is cleared before encoding. -/
def f64mag (bits : Nat) : Nat :=
  if ltZeroF64 bits then bits - 2^63 else bits

/-- No float64 anywhere in the value has a magnitude whose minimal
big-endian encoding is exactly 4 bytes; such magnitudes decode through
the float32 path of `toFloat`/`floatHandler.Number` and change value. -/
def goodF : RVal → Bool
  | .vF64 bits => !(decide (2^24 ≤ f64mag bits) && decide (f64mag bits < 2^32))
  | .vSlice (some xs) => xs.attach.all (fun x => goodF x.1)
  | .vStruct fields => fields.attach.all (fun f => goodF f.1.2.2)
  | _ => true
decreasing_by
  · have h1 := List.sizeOf_lt_of_mem x.2
    rcases x with ⟨x, hmem⟩
    simp at h1 ⊢
    omega
  · have h1 := List.sizeOf_lt_of_mem f.2
    rcases f with ⟨⟨o, ver, x⟩, hmem⟩
    simp at h1 ⊢
    omega

/-! ### Header parse facts -/

/-- helper: bytes 0x00–0x7F parse as an inline single byte. -/
theorem parse_singleByte (b : Nat) (h : b < 128) :
    ParseRTLHeader b = .ok (.singleByte, b) := by
  interval_cases b <;> rfl

/-- helper: the three sentinel bytes parse as themselves. -/
theorem parse_sentinels :
    ParseRTLHeader 0x80 = .ok (.zeroValue, 0)
    ∧ ParseRTLHeader 0x81 = .ok (.thTrue, 0)
    ∧ ParseRTLHeader 0x82 = .ok (.empty, 0) :=
  ⟨rfl, rfl, rfl⟩

/-- helper: a positive-numeric single header with payload length 1–8. -/
theorem parse_posNum (L : Nat) (h1 : 1 ≤ L) (h2 : L ≤ 8) :
    ParseRTLHeader (withNumber (headerTypeMap .posNumSingle) L)
      = .ok (.posNumSingle, L) := by
  interval_cases L <;> rfl

/-- helper: a negative-numeric single header with payload length 1–8. -/
theorem parse_negNum (L : Nat) (h1 : 1 ≤ L) (h2 : L ≤ 8) :
    ParseRTLHeader (withNumber (headerTypeMap .negNumSingle) L)
      = .ok (.negNumSingle, L) := by
  interval_cases L <;> rfl

/-- helper: an array single header with element count 1–16. -/
theorem parse_arraySingle (L : Nat) (h1 : 1 ≤ L) (h2 : L ≤ 16) :
    ParseRTLHeader (withNumber (headerTypeMap .arraySingle) L)
      = .ok (.arraySingle, L) := by
  interval_cases L <;> rfl

/-- helper: an array multi header with count byte-length 1–8. -/
theorem parse_arrayMulti (L : Nat) (h1 : 1 ≤ L) (h2 : L ≤ 8) :
    ParseRTLHeader (withNumber (headerTypeMap .arrayMulti) L)
      = .ok (.arrayMulti, L) := by
  interval_cases L <;> rfl

/-- helper: a string single header with byte count 1–32. -/
theorem parse_stringSingle (L : Nat) (h1 : 1 ≤ L) (h2 : L ≤ 32) :
    ParseRTLHeader (withNumber (headerTypeMap .stringSingle) L)
      = .ok (.stringSingle, L) := by
  interval_cases L <;> rfl

/-- helper: a string multi header with count byte-length 1–8. -/
theorem parse_stringMulti (L : Nat) (h1 : 1 ≤ L) (h2 : L ≤ 8) :
    ParseRTLHeader (withNumber (headerTypeMap .stringMulti) L)
      = .ok (.stringMulti, L) := by
  interval_cases L <;> rfl

/-! ### Codec round-trip facts -/

/-- helper: `bytesToUint` undoes `writeUint` for any `uint64`. -/
theorem bytesToUint_writeUint (n : Nat) (h : n < 2^64) :
    bytesToUint (writeUint n) 8 = n := by
  unfold writeUint bytesToUint
  split_ifs with h1 h2 h3 h4 h5 h6 h7
  all_goals
    simp only [List.length_cons, List.length_nil, List.drop, List.foldl]
  all_goals omega

/-- helper: `writeUint` emits between 1 and 8 bytes. -/
theorem writeUint_length_le (n : Nat) :
    1 ≤ (writeUint n).length ∧ (writeUint n).length ≤ 8 := by
  unfold writeUint
  split_ifs <;> simp

/-- helper: `writeUint` emits exactly 4 bytes exactly on `[2^24, 2^32)`. -/
theorem writeUint_length4 (n : Nat) :
    (writeUint n).length = 4 ↔ (2^24 ≤ n ∧ n < 2^32) := by
  unfold writeUint
  split_ifs <;> simp <;> omega

/-- helper: `writeUint` is never empty. -/
theorem writeUint_ne_nil (n : Nat) : writeUint n ≠ [] := by
  intro hc
  have h := writeUint_length_le n
  rw [hc] at h
  simp at h

/-- helper: reading a known prefix. -/
theorem readBytes_append (a b : List Nat) (ha : a ≠ []) :
    readBytes a.length (a ++ b) = .ok (a, b) := by
  unfold readBytes
  rw [if_neg (by simp [List.length_eq_zero, ha]), if_neg (by simp)]
  rw [List.take_left, List.drop_left]

/-- helper: reading a multi-length count written by `writeUint`. -/
theorem readMultiLength_writeUint (m : Nat) (hm : m < 2^64) (s : List Nat)
    (hs : m ≤ s.length) (hs0 : 0 < s.length) :
    readMultiLength (writeUint m).length (writeUint m ++ s) = .ok (m, s) := by
  unfold readMultiLength
  rw [readBytes_append _ _ (writeUint_ne_nil m)]
  have hbu : BytesToUint64 (writeUint m) = m := bytesToUint_writeUint m hm
  dsimp only
  rw [if_neg (by rw [hbu]; omega), hbu]

/-- helper: a small non-negative number is its own byte. -/
theorem smallNumberWriter_small (n : Nat) (h : n ≤ 127) :
    smallNumberWriter false n = [n] := by
  unfold smallNumberWriter
  rw [if_pos ⟨rfl, h⟩]

/-- helper: a positive number above 127 gets the PosNumSingle header. -/
theorem smallNumberWriter_pos (n : Nat) (h : ¬ n ≤ 127) :
    smallNumberWriter false n
      = withNumber (headerTypeMap .posNumSingle) (writeUint n).length
          :: writeUint n := by
  have hL := writeUint_length_le n
  unfold smallNumberWriter headMakerNumeric
  rw [if_neg (by simp [h]), if_neg (by omega), if_pos (by omega)]
  simp

/-- helper: a negative magnitude always gets the NegNumSingle header. -/
theorem smallNumberWriter_neg (n : Nat) :
    smallNumberWriter true n
      = withNumber (headerTypeMap .negNumSingle) (writeUint n).length
          :: writeUint n := by
  have hL := writeUint_length_le n
  unfold smallNumberWriter headMakerNumeric
  rw [if_neg (by simp), if_neg (by omega), if_pos (by omega)]
  simp

/-- helper: decoding a `writeUint` payload as a `uint64`. -/
theorem uintReadersD_posNum (n : Nat) (h : n < 2^64) (rest : List Nat) :
    uintReadersD .posNumSingle (writeUint n).length (writeUint n ++ rest)
      = .ok (n, rest) := by
  unfold uintReadersD
  rw [readBytes_append _ _ (writeUint_ne_nil n)]
  dsimp only
  rw [show BytesToUint64 (writeUint n) = n from bytesToUint_writeUint n h]

/-- helper: `BytesToInt64` undoes `writeUint` for a positive payload below
`2^63`. -/
theorem BytesToInt64_writeUint_false (m : Nat) (h : m < 2^63) :
    BytesToInt64 (writeUint m) false = (m : Int) := by
  unfold BytesToInt64 int64ofUint64
  rw [bytesToUint_writeUint m (by omega)]
  simp only [h, if_true]
  rw [if_neg (by simp)]

/-- helper: `BytesToInt64` undoes `writeUint` for a negative payload of
magnitude up to `2^63`; the magnitude `2^63` itself reinterprets to
`MinInt64 = -2^63` and the positivity guard skips the negation. -/
theorem BytesToInt64_writeUint_true (m : Nat) (h1 : 1 ≤ m) (h2 : m ≤ 2^63) :
    BytesToInt64 (writeUint m) true = -(m : Int) := by
  unfold BytesToInt64 int64ofUint64
  rw [bytesToUint_writeUint m (by omega)]
  by_cases hm : m < 2^63
  · simp only [hm, if_true]
    rw [if_pos ⟨trivial, by exact_mod_cast h1⟩]
  · simp only [hm, if_false]
    rw [if_neg (fun hcon => by have := hcon.2; omega)]
    omega

/-- helper: string header forms. -/
theorem headMakerString_single (L : Nat) (h1 : 1 ≤ L) (h2 : L ≤ 32) :
    headMakerString L = [withNumber (headerTypeMap .stringSingle) L] := by
  unfold headMakerString
  rw [if_neg (by omega), if_pos h2]

theorem headMakerString_multi (L : Nat) (h : 32 < L) :
    headMakerString L
      = withNumber (headerTypeMap .stringMulti) (writeUint L).length
          :: writeUint L := by
  unfold headMakerString
  rw [if_neg (by omega), if_neg (by omega)]

/-- helper: array header forms. -/
theorem headMakerArray_single (L : Nat) (h1 : 1 ≤ L) (h2 : L ≤ 16) :
    headMakerArray L = [withNumber (headerTypeMap .arraySingle) L] := by
  unfold headMakerArray
  rw [if_neg (by omega), if_pos h2]

theorem headMakerArray_multi (L : Nat) (h : 16 < L) :
    headMakerArray L
      = withNumber (headerTypeMap .arrayMulti) (writeUint L).length
          :: writeUint L := by
  unfold headMakerArray
  rw [if_neg (by omega), if_neg (by omega)]

/-- C1 helper: round trip of a `uint64` value. -/
theorem uint_rt (n : Nat) (h : n < 2^64) (k : Nat) (hk : ¬ k > 100)
    (rest : List Nat) :
    valueReader0D .tUint k (smallNumberWriter false n ++ rest)
      = .ok (.vUint n, rest) := by
  by_cases h127 : n ≤ 127
  · rw [smallNumberWriter_small n h127, List.singleton_append]
    rw [valueReader0D]
    simp only [readHeaderB]
    rw [parse_singleByte n (by omega)]
    dsimp only
    rw [valueReader1D, if_neg hk]
    dsimp only [uintReadersD]
  · have hL := writeUint_length_le n
    rw [smallNumberWriter_pos n h127, List.cons_append]
    rw [valueReader0D]
    simp only [readHeaderB]
    rw [parse_posNum _ hL.1 hL.2]
    dsimp only
    rw [valueReader1D, if_neg hk]
    rw [uintReadersD_posNum n h rest]

/-- C1 helper: round trip of an `int64` value, `MinInt64` included. -/
theorem int_rt (i : Int) (hlo : -(2^63) ≤ i) (hhi : i < 2^63) (k : Nat)
    (hk : ¬ k > 100) (rest : List Nat) :
    valueReader0D .tInt k (intWriter i ++ rest) = .ok (.vInt i, rest) := by
  by_cases hneg : i < 0
  · have hmag := uint64_negInt64_natAbs i hlo hneg
    have h1 : 1 ≤ i.natAbs := by omega
    have h2 : i.natAbs ≤ 2^63 := by omega
    rw [intWriter, if_pos hneg, hmag, smallNumberWriter_neg, List.cons_append]
    rw [valueReader0D]
    simp only [readHeaderB]
    have hL := writeUint_length_le i.natAbs
    rw [parse_negNum _ hL.1 hL.2]
    dsimp only
    rw [valueReader1D, if_neg hk]
    dsimp only [intReadersD]
    rw [readBytes_append _ _ (writeUint_ne_nil _)]
    dsimp only
    rw [BytesToInt64_writeUint_true _ h1 h2]
    have hi : -((i.natAbs : Nat) : Int) = i := by omega
    rw [hi]
  · have hnn : 0 ≤ i := by omega
    have hm : uint64ofInt64 i = i.toNat := by
      unfold uint64ofInt64
      rw [Int.emod_eq_of_lt hnn (by omega)]
    rw [intWriter, if_neg hneg, hm]
    by_cases h127 : i.toNat ≤ 127
    · rw [smallNumberWriter_small _ h127, List.singleton_append]
      rw [valueReader0D]
      simp only [readHeaderB]
      rw [parse_singleByte _ (by omega)]
      dsimp only
      rw [valueReader1D, if_neg hk]
      dsimp only [intReadersD]
      have hi : ((i.toNat : Nat) : Int) = i := by omega
      rw [hi]
    · rw [smallNumberWriter_pos _ h127, List.cons_append]
      rw [valueReader0D]
      simp only [readHeaderB]
      have hL := writeUint_length_le i.toNat
      rw [parse_posNum _ hL.1 hL.2]
      dsimp only
      rw [valueReader1D, if_neg hk]
      dsimp only [intReadersD]
      rw [readBytes_append _ _ (writeUint_ne_nil _)]
      dsimp only
      rw [BytesToInt64_writeUint_false _ (by omega)]
      have hi : ((i.toNat : Nat) : Int) = i := by omega
      rw [hi]

/-- C1 helper: round trip of `false` (the Zero sentinel). -/
theorem boolFalse_rt (k : Nat) (hk : ¬ k > 100) (rest : List Nat) :
    valueReader0D .tBool k (0x80 :: rest) = .ok (.vBool false, rest) := by
  rw [valueReader0D]
  simp only [readHeaderB]
  rw [parse_sentinels.1]
  dsimp only
  rw [valueReader1D, if_neg hk]
  dsimp only [boolReadersD]

/-- C1 helper: round trip of `true`. -/
theorem boolTrue_rt (k : Nat) (hk : ¬ k > 100) (rest : List Nat) :
    valueReader0D .tBool k (0x81 :: rest) = .ok (.vBool true, rest) := by
  rw [valueReader0D]
  simp only [readHeaderB]
  rw [parse_sentinels.2.1]
  dsimp only
  rw [valueReader1D, if_neg hk]
  dsimp only [boolReadersD]

/-- C1 helper: `valueReader1(THZeroValue, 0, …)` produces the zero value
of every covered type. -/
theorem decode_zero (t : RType) (k : Nat) (hk : ¬ k > 100) (s : List Nat) :
    valueReader1D t .zeroValue 0 k s = .ok (zeroOf t, s) := by
  cases t
  all_goals rw [valueReader1D, if_neg hk]
  all_goals simp [zeroOf, uintReadersD, intReadersD, boolReadersD,
    stringReadersD, floatReadersD]

/-- C1 helper: round trip of a string. -/
theorem string_rt (s : List Nat) (hb : ∀ x ∈ s, x < 256)
    (hlen : s.length < 2^64) (k : Nat) (hk : ¬ k > 100) (rest : List Nat) :
    valueReader0D .tString k (stringWriter s ++ rest)
      = .ok (.vString s, rest) := by
  by_cases hnil : s.length = 0
  · have hs : s = [] := List.length_eq_zero.mp hnil
    subst hs
    rw [stringWriter, if_pos hnil, List.singleton_append]
    rw [valueReader0D]
    simp only [readHeaderB]
    rw [parse_sentinels.1]
    dsimp only
    rw [valueReader1D, if_neg hk]
    dsimp only [stringReadersD]
  · rw [stringWriter, if_neg hnil, bytesWriterNN, if_neg hnil]
    by_cases hsb : s.length = 1 ∧ s.getD 0 0 ≤ 127
    · rw [if_pos hsb]
      obtain ⟨hl1, hc⟩ := hsb
      rcases s with _ | ⟨c, cs⟩
      · simp at hl1
      · have hcs : cs = [] := by
          rw [List.length_cons] at hl1
          exact List.length_eq_zero.mp (by omega)
        subst hcs
        have hc' : c ≤ 127 := by simpa using hc
        rw [List.singleton_append]
        rw [valueReader0D]
        simp only [readHeaderB]
        rw [parse_singleByte c (by omega)]
        dsimp only
        rw [valueReader1D, if_neg hk]
        dsimp only [stringReadersD]
        have hmod : c % 256 = c := Nat.mod_eq_of_lt (hb c (by simp))
        rw [hmod]
    · rw [if_neg hsb]
      have hsne : s ≠ [] := by
        intro hc
        subst hc
        simp at hnil
      by_cases h32 : s.length ≤ 32
      · rw [headMakerString_single _ (by omega) h32, List.append_assoc,
          List.singleton_append]
        rw [valueReader0D]
        simp only [readHeaderB]
        rw [parse_stringSingle _ (by omega) h32]
        dsimp only
        rw [valueReader1D, if_neg hk]
        dsimp only [stringReadersD]
        rw [readBytes_append s rest hsne]
      · rw [headMakerString_multi _ (by omega), List.append_assoc,
          List.cons_append]
        rw [valueReader0D]
        simp only [readHeaderB]
        have hL := writeUint_length_le s.length
        rw [parse_stringMulti _ hL.1 hL.2]
        dsimp only
        rw [valueReader1D, if_neg hk]
        dsimp only [stringReadersD]
        rw [readMultiLength_writeUint s.length hlen (s ++ rest)
          (by simp) (by simp; omega)]
        dsimp only
        rw [readBytes_append s rest hsne]

/-- C1 helper: round trip of a nil byte slice. -/
theorem bytesNil_rt (k : Nat) (hk : ¬ k > 100) (rest : List Nat) :
    valueReader0D .tByteSlice k (byteSliceWriter none ++ rest)
      = .ok (.vBytes none, rest) := by
  rw [byteSliceWriter, List.singleton_append]
  rw [valueReader0D]
  simp only [readHeaderB]
  rw [parse_sentinels.1]
  dsimp only
  rw [valueReader1D, if_neg hk]

/-- C1 helper: round trip of a non-nil byte slice; a one-small-byte slice
decodes through the inline-byte path at `nesting + 1`. -/
theorem bytesSome_rt (s : List Nat) (hb : ∀ x ∈ s, x < 256)
    (hlen : s.length < 2^64) (k : Nat) (hk : ¬ k > 100)
    (hk1 : ¬ k + 1 > 100) (rest : List Nat) :
    valueReader0D .tByteSlice k (byteSliceWriter (some s) ++ rest)
      = .ok (.vBytes (some s), rest) := by
  rw [byteSliceWriter, bytesWriterNN]
  by_cases hnil : s.length = 0
  · have hs : s = [] := List.length_eq_zero.mp hnil
    subst hs
    rw [if_pos hnil, List.singleton_append]
    rw [valueReader0D]
    simp only [readHeaderB]
    rw [parse_sentinels.2.2]
    dsimp only
    rw [valueReader1D, if_neg hk]
  · rw [if_neg hnil]
    by_cases hsb : s.length = 1 ∧ s.getD 0 0 ≤ 127
    · rw [if_pos hsb]
      obtain ⟨hl1, hc⟩ := hsb
      rcases s with _ | ⟨c, cs⟩
      · simp at hl1
      · have hcs : cs = [] := by
          rw [List.length_cons] at hl1
          exact List.length_eq_zero.mp (by omega)
        subst hcs
        have hc' : c ≤ 127 := by simpa using hc
        rw [List.singleton_append]
        rw [valueReader0D]
        simp only [readHeaderB]
        rw [parse_singleByte c (by omega)]
        dsimp only
        rw [valueReader1D, if_neg hk]
        try dsimp only
        rw [if_neg hk1]
        have hmod : c % 256 = c := Nat.mod_eq_of_lt (hb c (by simp))
        rw [hmod]
    · rw [if_neg hsb]
      have hsne : s ≠ [] := by
        intro hc
        subst hc
        simp at hnil
      by_cases h32 : s.length ≤ 32
      · rw [headMakerString_single _ (by omega) h32, List.append_assoc,
          List.singleton_append]
        rw [valueReader0D]
        simp only [readHeaderB]
        rw [parse_stringSingle _ (by omega) h32]
        dsimp only
        rw [valueReader1D, if_neg hk]
        try dsimp only
        rw [readBytes_append s rest hsne]
      · rw [headMakerString_multi _ (by omega), List.append_assoc,
          List.cons_append]
        rw [valueReader0D]
        simp only [readHeaderB]
        have hL := writeUint_length_le s.length
        rw [parse_stringMulti _ hL.1 hL.2]
        dsimp only
        rw [valueReader1D, if_neg hk]
        try dsimp only
        rw [readMultiLength_writeUint s.length hlen (s ++ rest)
          (by simp) (by simp; omega)]
        dsimp only
        rw [readBytes_append s rest hsne]

/-- C1 helper: clearing the sign bit changes neither the exponent nor the
mantissa, so NaN-ness is preserved. -/
theorem isNaN64_flip (bits : Nat) (h1 : 2^63 ≤ bits) (h2 : bits < 2^64) :
    isNaN64 (bits - 2^63) = isNaN64 bits := by
  have e1 : (bits - 2^63) / 2^52 % 2^11 = bits / 2^52 % 2^11 := by omega
  have e2 : (bits - 2^63) % 2^52 = bits % 2^52 := by omega
  rw [isNaN64, isNaN64, e1, e2]

/-- C1 helper: `BytesToUint64` undoes `writeUint`. -/
theorem BytesToUint64_writeUint (n : Nat) (h : n < 2^64) :
    BytesToUint64 (writeUint n) = n :=
  bytesToUint_writeUint n h

/-- helper: one-step evaluation of `readHeaderB` on a non-empty stream. -/
theorem readHeaderB_cons (b : Nat) (s : List Nat) :
    readHeaderB (b :: s)
      = match ParseRTLHeader b with
        | .error e => .error e
        | .ok th => .ok (th, s) := rfl

/-- helper: `valueReader0` on a stream whose first byte parses. -/
theorem valueReader0D_cons (t : RType) (k : Nat) (b : Nat) (s : List Nat)
    (th : TypeHeader) (length : Nat)
    (hp : ParseRTLHeader b = .ok (th, length)) :
    valueReader0D t k (b :: s) = valueReader1D t th length k s := by
  rw [valueReader0D, readHeaderB_cons, hp]

/-- helper: `valueReader1` dispatch on a float64 destination. -/
theorem valueReader1D_fl (th : TypeHeader) (length k : Nat) (s : List Nat)
    (hk : ¬ k > 100) :
    valueReader1D .tF64 th length k s
      = match floatReadersD th length s with
        | .error e => .error e
        | .ok (bits, rest) => .ok (.vF64 bits, rest) := by
  rw [valueReader1D, if_neg hk]

/-- helper: `valueReader1` dispatch on a slice destination for the Zero,
Empty and the two array headers. -/
theorem valueReader1D_slice_zero (elem : RType) (length k : Nat)
    (s : List Nat) (hk : ¬ k > 100) :
    valueReader1D (.tSlice elem) .zeroValue length k s
      = .ok (.vSlice none, s) := by
  rw [valueReader1D, if_neg hk]

theorem valueReader1D_slice_empty (elem : RType) (length k : Nat)
    (s : List Nat) (hk : ¬ k > 100) :
    valueReader1D (.tSlice elem) .empty length k s
      = .ok (.vSlice (some []), s) := by
  rw [valueReader1D, if_neg hk]

theorem valueReader1D_slice_arrS (elem : RType) (length k : Nat)
    (s : List Nat) (hk : ¬ k > 100) :
    valueReader1D (.tSlice elem) .arraySingle length k s
      = match decodeListLoop elem length (k + 1) s with
        | .error e => .error e
        | .ok (vs, rest) => .ok (.vSlice (some vs), rest) := by
  rw [valueReader1D, if_neg hk]

theorem valueReader1D_slice_arrM (elem : RType) (length k : Nat)
    (s : List Nat) (hk : ¬ k > 100) :
    valueReader1D (.tSlice elem) .arrayMulti length k s
      = match readMultiLength length s with
        | .error e => .error e
        | .ok (l, rest) =>
          match decodeListLoop elem l (k + 1) rest with
          | .error e => .error e
          | .ok (vs, rest2) => .ok (.vSlice (some vs), rest2) := by
  rw [valueReader1D, if_neg hk]

/-- helper: `valueReader1` dispatch on a struct destination. -/
theorem valueReader1D_struct_zero (fields : List (Nat × Nat × RType))
    (length k : Nat) (s : List Nat) (hk : ¬ k > 100) :
    valueReader1D (.tStruct fields) .zeroValue length k s
      = .ok (zeroOf (.tStruct fields), s) := by
  rw [valueReader1D, if_neg hk]

theorem valueReader1D_struct_arrS (fields : List (Nat × Nat × RType))
    (length k : Nat) (s : List Nat) (hk : ¬ k > 100) :
    valueReader1D (.tStruct fields) .arraySingle length k s
      = match decodeStructLoop fields length 0 (k + 1) s with
        | .error e => .error e
        | .ok (fvs, rest) => .ok (.vStruct fvs, rest) := by
  rw [valueReader1D, if_neg hk]

theorem valueReader1D_struct_arrM (fields : List (Nat × Nat × RType))
    (length k : Nat) (s : List Nat) (hk : ¬ k > 100) :
    valueReader1D (.tStruct fields) .arrayMulti length k s
      = match readMultiLength length s with
        | .error e => .error e
        | .ok (l, rest) =>
          match decodeStructLoop fields l 0 (k + 1) rest with
          | .error e => .error e
          | .ok (fvs, rest2) => .ok (.vStruct fvs, rest2) := by
  rw [valueReader1D, if_neg hk]

/-- helper: the float table on the two numeric headers. -/
theorem floatReadersD_neg (length : Nat) (s : List Nat) :
    floatReadersD .negNumSingle length s = toFloatD length true s := rfl

theorem floatReadersD_pos (length : Nat) (s : List Nat) :
    floatReadersD .posNumSingle length s = toFloatD length false s := rfl

/-- helper: `toFloat` on a non-4-byte `writeUint` payload decodes through
`BytesToFloat64`. -/
theorem toFloatD_writeUint (m : Nat) (hL4 : (writeUint m).length ≠ 4)
    (neg : Bool) (rest : List Nat) :
    toFloatD (writeUint m).length neg (writeUint m ++ rest)
      = .ok (BytesToFloat64bits (writeUint m) neg, rest) := by
  rw [toFloatD, readBytes_append _ _ (writeUint_ne_nil m)]
  dsimp only
  rw [if_neg hL4]

/-- C1 helper: the written float64 magnitude decoded by `BytesToFloat64`
restores the original bits. -/
theorem BytesToFloat64bits_mag (bits : Nat) (h : bits < 2^64) :
    (ltZeroF64 bits = true →
      BytesToFloat64bits (writeUint (bits - 2^63)) true = bits)
    ∧ (ltZeroF64 bits = false →
      BytesToFloat64bits (writeUint bits) false = bits) := by
  constructor
  · intro hneg
    have hlt : 2^63 < bits ∧ isNaN64 bits = false := by
      rw [ltZeroF64] at hneg
      simp only [Bool.and_eq_true, decide_eq_true_eq, Bool.not_eq_true'] at hneg
      exact hneg
    rw [BytesToFloat64bits,
      BytesToUint64_writeUint _ (by omega)]
    have hnan : isNaN64 (bits - 2^63) = isNaN64 bits :=
      isNaN64_flip bits (by omega) h
    have hgt : gtZeroF64 (bits - 2^63) = true := by
      rw [gtZeroF64, hnan, hlt.2]
      simp only [Bool.not_false, Bool.and_true, Bool.and_eq_true,
        decide_eq_true_eq]
      omega
    rw [if_pos (by rw [hgt]; simp)]
    omega
  · intro hpos
    rw [BytesToFloat64bits, BytesToUint64_writeUint _ h]
    rw [if_neg (by simp)]

/-- C1 helper: round trip of a float64 whose written magnitude does not
take exactly 4 payload bytes. -/
theorem f64_rt (bits : Nat) (h : bits < 2^64)
    (hgood : ¬ (2^24 ≤ f64mag bits ∧ f64mag bits < 2^32))
    (k : Nat) (hk : ¬ k > 100) (rest : List Nat) :
    valueReader0D .tF64 k (float64Writer bits ++ rest)
      = .ok (.vF64 bits, rest) := by
  rw [float64Writer]
  by_cases hneg : ltZeroF64 bits = true
  · rw [if_pos hneg]
    have hlt : 2^63 < bits ∧ isNaN64 bits = false := by
      rw [ltZeroF64] at hneg
      simp only [Bool.and_eq_true, decide_eq_true_eq, Bool.not_eq_true'] at hneg
      exact hneg
    have hmag : f64mag bits = bits - 2^63 := by rw [f64mag, if_pos hneg]
    have hL := writeUint_length_le (bits - 2^63)
    have hL4 : (writeUint (bits - 2^63)).length ≠ 4 := by
      intro hc
      rw [writeUint_length4] at hc
      exact hgood (by rw [hmag]; exact hc)
    rw [smallNumberWriter_neg, List.cons_append]
    rw [valueReader0D_cons _ _ _ _ _ _ (parse_negNum _ hL.1 hL.2)]
    rw [valueReader1D_fl _ _ _ _ hk]
    rw [floatReadersD_neg, toFloatD_writeUint _ hL4 true rest]
    rw [(BytesToFloat64bits_mag bits h).1 hneg]
  · rw [if_neg hneg]
    have hmag : f64mag bits = bits := by rw [f64mag, if_neg hneg]
    by_cases h127 : bits ≤ 127
    · rw [smallNumberWriter_small _ h127, List.singleton_append]
      rw [valueReader0D_cons _ _ _ _ _ _ (parse_singleByte _ (by omega))]
      rw [valueReader1D_fl _ _ _ _ hk]
      dsimp only [floatReadersD]
      rw [Nat.mod_eq_of_lt (by omega)]
    · have hL := writeUint_length_le bits
      have hL4 : (writeUint bits).length ≠ 4 := by
        intro hc
        rw [writeUint_length4] at hc
        exact hgood (by rw [hmag]; exact hc)
      rw [smallNumberWriter_pos _ h127, List.cons_append]
      rw [valueReader0D_cons _ _ _ _ _ _ (parse_posNum _ hL.1 hL.2)]
      rw [valueReader1D_fl _ _ _ _ hk]
      rw [floatReadersD_pos, toFloatD_writeUint _ hL4 false rest]
      rw [(BytesToFloat64bits_mag bits h).2 (by simp [hneg])]

/-! ### Small-step equations for the writer and the decode loops -/

theorem skipLoop_nil (s : List Nat) : skipLoop [] s = .ok s := by
  rw [skipLoop]

/-- helper: skipping a Zero placeholder consumes exactly its byte. -/
theorem skip_zero (s : List Nat) : skipValue (0x80 :: s) = .ok s := by
  have hsr : skipReadHeader (0x80 :: s)
      = .ok (⟨.zeroValue, .byte, 0, 0⟩, ⟨s, by simp⟩) := rfl
  unfold skipValue
  rw [hsr]
  unfold skipLoop
  norm_num [headerTypeMap]
  exact skipLoop_nil s

theorem encodeV_uint (n k : Nat) (hk : ¬ k > 100) :
    encodeV (.vUint n) k = .ok (smallNumberWriter false n) := by
  rw [encodeV, if_neg hk]

theorem encodeV_int (i : Int) (k : Nat) (hk : ¬ k > 100) :
    encodeV (.vInt i) k = .ok (intWriter i) := by
  rw [encodeV, if_neg hk]

theorem encodeV_bool (b : Bool) (k : Nat) (hk : ¬ k > 100) :
    encodeV (.vBool b) k = .ok (if b then [0x81] else [0x80]) := by
  rw [encodeV, if_neg hk]

theorem encodeV_string (s : List Nat) (k : Nat) (hk : ¬ k > 100) :
    encodeV (.vString s) k = .ok (stringWriter s) := by
  rw [encodeV, if_neg hk]

theorem encodeV_bytes (s : Option (List Nat)) (k : Nat) (hk : ¬ k > 100) :
    encodeV (.vBytes s) k = .ok (byteSliceWriter s) := by
  rw [encodeV, if_neg hk]

theorem encodeV_f64 (bits k : Nat) (hk : ¬ k > 100) :
    encodeV (.vF64 bits) k = .ok (float64Writer bits) := by
  rw [encodeV, if_neg hk]

theorem encodeV_sliceNil (k : Nat) (hk : ¬ k > 100) :
    encodeV (.vSlice none) k = .ok [0x80] := by
  rw [encodeV, if_neg hk]

theorem encodeV_sliceEmpty (k : Nat) (hk : ¬ k > 100) :
    encodeV (.vSlice (some [])) k = .ok [0x82] := by
  rw [encodeV, if_neg hk]
  try dsimp only
  rw [if_pos (show (([] : List RVal).length = 0) from rfl)]

theorem encodeV_slice (xs : List RVal) (k : Nat) (hk : ¬ k > 100)
    (hne : ¬ xs.length = 0) (hk2 : ¬ 100 ≤ k) :
    encodeV (.vSlice (some xs)) k
      = match sliceElemsWriter xs (k + 1) with
        | .error e => .error e
        | .ok body => .ok (headMakerArray xs.length ++ body) := by
  rw [encodeV, if_neg hk]
  try dsimp only
  rw [if_neg hne, if_neg hk2]

theorem encodeV_structEmpty (k : Nat) (hk : ¬ k > 100) :
    encodeV (.vStruct []) k = .ok [0x80] := by
  rw [encodeV, if_neg hk]
  try dsimp only
  rw [if_pos (show (([] : List (Nat × Nat × RVal)).length = 0) from rfl)]

theorem encodeV_struct (fvs : List (Nat × Nat × RVal)) (k : Nat)
    (hk : ¬ k > 100) (hne : ¬ fvs.length = 0) (hk2 : ¬ 100 ≤ k) :
    encodeV (.vStruct fvs) k
      = match structFieldsWriter (versionedFields (structMeta fvs)).2.length
            fvs (-1) (k + 1) with
        | .error e => .error e
        | .ok body =>
          .ok (headMakerArray (versionedFields (structMeta fvs)).1 ++ body) := by
  rw [encodeV, if_neg hk]
  try dsimp only
  rw [if_neg hne, if_neg hk2]

theorem sliceElemsWriter_nil (k : Nat) : sliceElemsWriter [] k = .ok [] := by
  rw [sliceElemsWriter]

theorem sliceElemsWriter_cons (x : RVal) (rest : List RVal) (k : Nat) :
    sliceElemsWriter (x :: rest) k
      = match encodeV x k with
        | .error e => .error e
        | .ok bs =>
          match sliceElemsWriter rest k with
          | .error e => .error e
          | .ok tl => .ok (bs ++ tl) := by
  rw [sliceElemsWriter]

theorem structFieldsWriter_zero (fs : List (Nat × Nat × RVal))
    (order : Int) (k : Nat) : structFieldsWriter 0 fs order k = .ok [] := by
  rw [structFieldsWriter]

theorem structFieldsWriter_nil (c : Nat) (order : Int) (k : Nat) :
    structFieldsWriter (c + 1) [] order k = .ok [] := by
  rw [structFieldsWriter]

theorem structFieldsWriter_cons (c : Nat) (o ver : Nat) (x : RVal)
    (rest : List (Nat × Nat × RVal)) (order : Int) (k : Nat) :
    structFieldsWriter (c + 1) ((o, ver, x) :: rest) order k
      = match encodeV x k with
        | .error e => .error e
        | .ok bs =>
          match structFieldsWriter c rest o k with
          | .error e => .error e
          | .ok tl =>
            .ok ((if (o : Int) > order + 1 then
                    List.replicate ((o : Int) - order - 1).toNat 0x80
                  else []) ++ bs ++ tl) := by
  rw [structFieldsWriter]

theorem decodeListLoop_zero (elem : RType) (k : Nat) (s : List Nat) :
    decodeListLoop elem 0 k s = .ok ([], s) := by
  rw [decodeListLoop]

theorem decodeListLoop_succ (elem : RType) (c k : Nat) (s : List Nat) :
    decodeListLoop elem (c + 1) k s
      = match valueReader0D elem k s with
        | .error e => .error e
        | .ok (v, s2) =>
          match decodeListLoop elem c k s2 with
          | .error e => .error e
          | .ok (vs, s3) => .ok (v :: vs, s3) := by
  rw [decodeListLoop]

theorem zeroFillLoop_nil (k : Nat) (s : List Nat) :
    zeroFillLoop [] k s = .ok ([], s) := by
  rw [zeroFillLoop]

theorem zeroFillLoop_cons (o ver : Nat) (ft : RType)
    (rest : List (Nat × Nat × RType)) (k : Nat) (s : List Nat) :
    zeroFillLoop ((o, ver, ft) :: rest) k s
      = match valueReader1D ft .zeroValue 0 k s with
        | .error e => .error e
        | .ok (v, s2) =>
          match zeroFillLoop rest k s2 with
          | .error e => .error e
          | .ok (fvs, s3) => .ok ((o, ver, v) :: fvs, s3) := by
  rw [zeroFillLoop]

theorem decodeStructLoop_nilFsZero (i k : Nat) (s : List Nat) :
    decodeStructLoop [] 0 i k s = .ok ([], s) := by
  rw [decodeStructLoop]

theorem decodeStructLoop_nilFsSucc (c i k : Nat) (s : List Nat) :
    decodeStructLoop [] (c + 1) i k s = .ok ([], s) := by
  rw [decodeStructLoop]

theorem decodeStructLoop_zeroCount (f : Nat × Nat × RType)
    (rest : List (Nat × Nat × RType)) (i k : Nat) (s : List Nat) :
    decodeStructLoop (f :: rest) 0 i k s = zeroFillLoop (f :: rest) k s := by
  rw [decodeStructLoop]
  simp

theorem decodeStructLoop_step (o ver : Nat) (ft : RType)
    (rest : List (Nat × Nat × RType)) (c i k : Nat) (s : List Nat) :
    decodeStructLoop ((o, ver, ft) :: rest) (c + 1) i k s
      = if i = o then
          match valueReader0D ft k s with
          | .error e => .error e
          | .ok (v, s2) =>
            match decodeStructLoop rest c (i + 1) k s2 with
            | .error e => .error e
            | .ok (fvs, s3) => .ok ((o, ver, v) :: fvs, s3)
        else if i < o then
          match skipValue s with
          | .error e => .error e
          | .ok s2 => decodeStructLoop ((o, ver, ft) :: rest) c (i + 1) k s2
        else .error .decodeErr := by
  rw [decodeStructLoop]

/-! ### Writer output shape facts -/

theorem smallNumberWriter_ne_nil (neg : Bool) (n : Nat) :
    smallNumberWriter neg n ≠ [] := by
  unfold smallNumberWriter headMakerNumeric
  have hL := writeUint_length_le n
  split_ifs <;> simp [writeUint_ne_nil n] <;> omega

theorem intWriter_ne_nil (i : Int) : intWriter i ≠ [] := by
  unfold intWriter
  split_ifs <;> exact smallNumberWriter_ne_nil _ _

theorem bytesWriterNN_ne_nil (bs : List Nat) : bytesWriterNN bs ≠ [] := by
  unfold bytesWriterNN
  split_ifs with h1 h2
  · simp
  · intro hc
    rw [hc] at h2
    simp at h2
  · simp
    intro _ hc
    rw [hc] at h1
    simp at h1

theorem stringWriter_ne_nil (s : List Nat) : stringWriter s ≠ [] := by
  unfold stringWriter
  split_ifs
  · simp
  · exact bytesWriterNN_ne_nil s

theorem byteSliceWriter_ne_nil (s : Option (List Nat)) :
    byteSliceWriter s ≠ [] := by
  cases s
  · simp [byteSliceWriter]
  · exact bytesWriterNN_ne_nil _

theorem float64Writer_ne_nil (bits : Nat) : float64Writer bits ≠ [] := by
  unfold float64Writer
  split_ifs <;> exact smallNumberWriter_ne_nil _ _

theorem headMakerArray_ne_nil (n : Nat) (h : 1 ≤ n) :
    headMakerArray n ≠ [] := by
  unfold headMakerArray
  split_ifs with h1 h2
  · omega
  · simp
  · simp

/-- helper: the emitted struct header count is always positive. -/
theorem versionedFields_fst_pos (fields : List FieldV) (h : fields ≠ []) :
    1 ≤ (versionedFields fields).1 := by
  rcases fields with _ | ⟨f, rest⟩
  · exact absurd rfl h
  · rw [versionedFields]
    try dsimp only
    split_ifs <;> simp

theorem structMeta_length (fvs : List (Nat × Nat × RVal)) :
    (structMeta fvs).length = fvs.length := by
  simp [structMeta]

/-- helper: nesting overflow aborts the writer. -/
theorem encodeV_err (v : RVal) (k : Nat) (hk : k > 100) :
    encodeV v k = .error .nestingOverflow := by
  rw [encodeV.eq_def, if_pos hk]

theorem encodeV_slice_ov (xs : List RVal) (k : Nat) (hk : ¬ k > 100)
    (hne : ¬ xs.length = 0) (hk2 : 100 ≤ k) :
    encodeV (.vSlice (some xs)) k = .error .nestingOverflow := by
  rw [encodeV, if_neg hk]
  try dsimp only
  rw [if_neg hne, if_pos hk2]

theorem encodeV_struct_ov (fvs : List (Nat × Nat × RVal)) (k : Nat)
    (hk : ¬ k > 100) (hne : ¬ fvs.length = 0) (hk2 : 100 ≤ k) :
    encodeV (.vStruct fvs) k = .error .nestingOverflow := by
  rw [encodeV, if_neg hk]
  try dsimp only
  rw [if_neg hne, if_pos hk2]

/-- helper: a successful encode is never empty — every value writes at
least its header or sentinel byte. -/
theorem encodeV_ne_nil (v : RVal) (k : Nat) (bs : List Nat)
    (h : encodeV v k = .ok bs) : bs ≠ [] := by
  by_cases hk : k > 100
  · rw [encodeV_err v k hk] at h
    exact Except.noConfusion h
  cases v with
  | vUint n =>
    rw [encodeV_uint _ _ hk] at h
    obtain rfl : smallNumberWriter false n = bs := by injection h
    exact smallNumberWriter_ne_nil _ _
  | vInt i =>
    rw [encodeV_int _ _ hk] at h
    obtain rfl : intWriter i = bs := by injection h
    exact intWriter_ne_nil _
  | vBool b =>
    rw [encodeV_bool _ _ hk] at h
    obtain rfl : (if b then [0x81] else [0x80]) = bs := by injection h
    cases b <;> simp
  | vString s =>
    rw [encodeV_string _ _ hk] at h
    obtain rfl : stringWriter s = bs := by injection h
    exact stringWriter_ne_nil _
  | vBytes s =>
    rw [encodeV_bytes _ _ hk] at h
    obtain rfl : byteSliceWriter s = bs := by injection h
    exact byteSliceWriter_ne_nil _
  | vF64 bits =>
    rw [encodeV_f64 _ _ hk] at h
    obtain rfl : float64Writer bits = bs := by injection h
    exact float64Writer_ne_nil _
  | vSlice xs =>
    cases xs with
    | none =>
      rw [encodeV_sliceNil _ hk] at h
      obtain rfl : [0x80] = bs := by injection h
      simp
    | some xs =>
      by_cases hxs : xs.length = 0
      · have hx : xs = [] := List.length_eq_zero.mp hxs
        subst hx
        rw [encodeV_sliceEmpty _ hk] at h
        obtain rfl : [0x82] = bs := by injection h
        simp
      · by_cases hk2 : 100 ≤ k
        · rw [encodeV_slice_ov xs k hk hxs hk2] at h
          exact Except.noConfusion h
        · rw [encodeV_slice xs k hk hxs hk2] at h
          cases hsw : sliceElemsWriter xs (k + 1) with
          | error e =>
            rw [hsw] at h
            exact Except.noConfusion h
          | ok body =>
            rw [hsw] at h
            dsimp only at h
            obtain rfl : headMakerArray xs.length ++ body = bs := by injection h
            have := headMakerArray_ne_nil xs.length (by omega)
            simp [List.append_eq_nil]
            intro hc
            exact absurd hc this
  | vStruct fvs =>
    by_cases hfs : fvs.length = 0
    · have hx : fvs = [] := List.length_eq_zero.mp hfs
      subst hx
      rw [encodeV_structEmpty _ hk] at h
      obtain rfl : [0x80] = bs := by injection h
      simp
    · by_cases hk2 : 100 ≤ k
      · rw [encodeV_struct_ov fvs k hk hfs hk2] at h
        exact Except.noConfusion h
      · rw [encodeV_struct fvs k hk hfs hk2] at h
        cases hsw : structFieldsWriter (versionedFields (structMeta fvs)).2.length
            fvs (-1) (k + 1) with
        | error e =>
          rw [hsw] at h
          exact Except.noConfusion h
        | ok body =>
          rw [hsw] at h
          dsimp only at h
          obtain rfl :
              headMakerArray (versionedFields (structMeta fvs)).1 ++ body
                = bs := by injection h
          have hpos : 1 ≤ (versionedFields (structMeta fvs)).1 := by
            apply versionedFields_fst_pos
            intro hc
            rw [show (0 : Nat) = ([] : List FieldV).length from rfl, ← hc,
              structMeta_length] at hfs
            exact hfs rfl
          have := headMakerArray_ne_nil _ hpos
          simp [List.append_eq_nil]
          intro hc
          exact absurd hc this

/-- helper: the slice body holds at least one byte per element. -/
theorem sliceElemsWriter_length (xs : List RVal) (k : Nat) (body : List Nat)
    (h : sliceElemsWriter xs k = .ok body) : xs.length ≤ body.length := by
  induction xs generalizing body with
  | nil => simp
  | cons x rest ih =>
    rw [sliceElemsWriter_cons] at h
    cases he : encodeV x k with
    | error e =>
      rw [he] at h
      exact Except.noConfusion h
    | ok bs =>
      rw [he] at h
      dsimp only at h
      cases hr : sliceElemsWriter rest k with
      | error e =>
        rw [hr] at h
        exact Except.noConfusion h
      | ok tl =>
        rw [hr] at h
        dsimp only at h
        obtain rfl : bs ++ tl = body := by injection h
        have h1 := ih tl hr
        have h2 : bs ≠ [] := encodeV_ne_nil x k bs he
        have h3 : 1 ≤ bs.length := by
          rcases bs with _ | _
          · exact absurd rfl h2
          · simp
        simp only [List.length_cons, List.length_append]
        omega

/-- helper: the struct body holds at least one byte per emitted element
(placeholders included): writing `c` fields after logical position
`order` emits at least `order(last written field) - order` bytes. -/
theorem structFieldsWriter_length (fs : List (Nat × Nat × RVal)) (c : Nat)
    (order : Int) (k : Nat) (body : List Nat)
    (h : structFieldsWriter c fs order k = .ok body)
    (hc : c ≤ fs.length) (hc1 : 1 ≤ c)
    (hchain : List.Chain' (fun a b => a.1 < b.1) fs)
    (hfirst : ∀ f, fs.head? = some f → order < (f.1 : Int)) :
    ((fs.getD (c - 1) (0, 0, .vUint 0)).1 : Int) - order
      ≤ (body.length : Int) := by
  induction fs generalizing c order body with
  | nil => simp at hc; omega
  | cons f rest ih =>
    obtain ⟨o, ver, x⟩ := f
    obtain ⟨c', rfl⟩ : ∃ c', c = c' + 1 := ⟨c - 1, by omega⟩
    rw [structFieldsWriter_cons] at h
    cases he : encodeV x k with
    | error e =>
      rw [he] at h
      exact Except.noConfusion h
    | ok bs =>
      rw [he] at h
      dsimp only at h
      cases hr : structFieldsWriter c' rest o k with
      | error e =>
        rw [hr] at h
        exact Except.noConfusion h
      | ok tl =>
        rw [hr] at h
        dsimp only at h
        obtain rfl :
            (if (o : Int) > order + 1 then
              List.replicate ((o : Int) - order - 1).toNat 0x80
            else []) ++ bs ++ tl = body := by injection h
        have hbs : 1 ≤ bs.length := by
          have h2 := encodeV_ne_nil x k bs he
          rcases bs with _ | _
          · exact absurd rfl h2
          · simp
        have hof : order < (o : Int) := hfirst (o, ver, x) rfl
        have hpad : ((o : Int) - order - 1)
            ≤ ((if (o : Int) > order + 1 then
                List.replicate ((o : Int) - order - 1).toNat 0x80
              else []).length : Int) := by
          split_ifs with hgap
          · simp only [List.length_replicate]
            omega
          · simp only [List.length_nil]
            omega
        rcases Nat.eq_zero_or_pos c' with hc0 | hcpos
        · subst hc0
          simp only [Nat.add_sub_cancel, List.getD_cons_zero]
          simp only [List.length_append]
          push_cast
          omega
        · have hch' : List.Chain' (fun a b => a.1 < b.1) rest :=
            hchain.tail
          have hfi' : ∀ f, rest.head? = some f → (o : Int) < (f.1 : Int) := by
            intro f hf
            rcases rest with _ | ⟨r2, rest2⟩
            · exact absurd hf (by simp)
            · have := List.chain'_cons.mp hchain
              simp only [List.head?_cons, Option.some.injEq] at hf
              subst hf
              exact_mod_cast this.1
          have hih := ih c' o tl hr (by simp at hc; omega) hcpos hch' hfi'
          have hgd : ((o, ver, x) :: rest).getD (c' + 1 - 1) (0, 0, .vUint 0)
              = rest.getD (c' - 1) (0, 0, .vUint 0) := by
            have : c' + 1 - 1 = (c' - 1) + 1 := by omega
            rw [this, List.getD_cons_succ]
          rw [hgd]
          simp only [List.length_append]
          push_cast
          push_cast at hih
          omega

/-! ### Structure facts: depth, float goodness, zero values -/

/-- helper: an element is bounded by the running maximum. -/
theorem le_foldr_maxBy {β : Type} (l : List β) (g : β → Nat) (b : β)
    (hb : b ∈ l) : g b ≤ l.foldr (fun a acc => max (g a) acc) 0 := by
  induction l with
  | nil => cases hb
  | cons x xs ih =>
    simp only [List.foldr_cons]
    rcases List.mem_cons.mp hb with hb | hb
    · subst hb
      exact le_max_left _ _
    · exact le_trans (ih hb) (le_max_right _ _)

theorem sizeOf_mem_slice (xs : List RVal) (x : RVal) (hx : x ∈ xs) :
    sizeOf x < sizeOf (RVal.vSlice (some xs)) := by
  have h1 := List.sizeOf_lt_of_mem hx
  simp
  omega

theorem sizeOf_mem_struct (fvs : List (Nat × Nat × RVal))
    (f : Nat × Nat × RVal) (hf : f ∈ fvs) :
    sizeOf f.2.2 < sizeOf (RVal.vStruct fvs) := by
  have h1 := List.sizeOf_lt_of_mem hf
  obtain ⟨o, ver, v⟩ := f
  simp at h1 ⊢
  omega

theorem depthR_slice_mem (xs : List RVal) (x : RVal) (hx : x ∈ xs) :
    depthR x < depthR (.vSlice (some xs)) := by
  rw [show depthR (.vSlice (some xs))
      = 1 + xs.attach.foldr (fun x acc => max (depthR x.1) acc) 0
    from by rw [depthR]]
  have h := le_foldr_maxBy xs.attach (fun a => depthR a.1) ⟨x, hx⟩
    (List.mem_attach xs ⟨x, hx⟩)
  simp only at h
  omega

theorem depthR_struct_mem (fvs : List (Nat × Nat × RVal))
    (f : Nat × Nat × RVal) (hf : f ∈ fvs) :
    depthR f.2.2 < depthR (.vStruct fvs) := by
  rw [show depthR (.vStruct fvs)
      = 1 + fvs.attach.foldr (fun f acc => max (depthR f.1.2.2) acc) 0
    from by rw [depthR]]
  have h := le_foldr_maxBy fvs.attach (fun a => depthR a.1.2.2) ⟨f, hf⟩
    (List.mem_attach fvs ⟨f, hf⟩)
  simp only at h
  omega

theorem depthR_pos (v : RVal) : 1 ≤ depthR v := by
  cases v with
  | vSlice xs =>
    cases xs with
    | none => simp [depthR]
    | some xs => rw [depthR]; omega
  | vStruct fvs => rw [depthR]; omega
  | vUint n => simp [depthR]
  | vInt i => simp [depthR]
  | vBool b => simp [depthR]
  | vString s => simp [depthR]
  | vBytes s => simp [depthR]
  | vF64 bits => simp [depthR]

theorem goodF_slice_mem (xs : List RVal) (x : RVal) (hx : x ∈ xs)
    (hg : goodF (.vSlice (some xs)) = true) : goodF x = true := by
  rw [show goodF (.vSlice (some xs)) = xs.attach.all (fun x => goodF x.1)
    from by rw [goodF]] at hg
  rw [List.all_eq_true] at hg
  exact hg ⟨x, hx⟩ (List.mem_attach xs ⟨x, hx⟩)

theorem goodF_struct_mem (fvs : List (Nat × Nat × RVal))
    (f : Nat × Nat × RVal) (hf : f ∈ fvs)
    (hg : goodF (.vStruct fvs) = true) : goodF f.2.2 = true := by
  rw [show goodF (.vStruct fvs) = fvs.attach.all (fun f => goodF f.1.2.2)
    from by rw [goodF]] at hg
  rw [List.all_eq_true] at hg
  exact hg ⟨f, hf⟩ (List.mem_attach fvs ⟨f, hf⟩)

theorem isZeroR_struct_mem (fvs : List (Nat × Nat × RVal))
    (f : Nat × Nat × RVal) (hf : f ∈ fvs)
    (hz : isZeroR (.vStruct fvs) = true) : isZeroR f.2.2 = true := by
  rw [show isZeroR (.vStruct fvs) = fvs.attach.all (fun f => isZeroR f.1.2.2)
    from by rw [isZeroR]] at hz
  rw [List.all_eq_true] at hz
  exact hz ⟨f, hf⟩ (List.mem_attach fvs ⟨f, hf⟩)

theorem zeroOf_struct (tfs : List (Nat × Nat × RType)) :
    zeroOf (.tStruct tfs)
      = .vStruct (tfs.map (fun f => (f.1, f.2.1, zeroOf f.2.2))) := by
  rw [zeroOf]
  congr 1
  rw [show (fun (f : {x // x ∈ tfs}) => (f.1.1, f.1.2.1, zeroOf f.1.2.2))
      = (fun (f : {x // x ∈ tfs}) => (fun g => (g.1, g.2.1, zeroOf g.2.2)) f.1)
    from rfl]
  exact List.attach_map_coe tfs (fun g => (g.1, g.2.1, zeroOf g.2.2))

/-- helper: a zero value of a covered type IS the type's zero value:
`IsZero` detects exactly `reflect.Zero`. -/
theorem isZero_zeroOf (n : Nat) :
    ∀ v, sizeOf v ≤ n → ∀ t, Typed t v → isZeroR v = true → v = zeroOf t := by
  induction n with
  | zero =>
    intro v hsz
    exact absurd hsz (by cases v <;> simp_arith)
  | succ n ihn =>
    intro v hsz t ht hz
    cases ht with
    | uint m h =>
      rw [show isZeroR (.vUint m) = (m == 0) from by rw [isZeroR]] at hz
      simp only [beq_iff_eq] at hz
      subst hz
      rw [show zeroOf .tUint = .vUint 0 from by rw [zeroOf]]
    | int i h1 h2 =>
      rw [show isZeroR (.vInt i) = (i == 0) from by rw [isZeroR]] at hz
      simp only [beq_iff_eq] at hz
      subst hz
      rw [show zeroOf .tInt = .vInt 0 from by rw [zeroOf]]
    | bool b =>
      rw [show isZeroR (.vBool b) = !b from by rw [isZeroR]] at hz
      simp only [Bool.not_eq_true'] at hz
      subst hz
      rw [show zeroOf .tBool = .vBool false from by rw [zeroOf]]
    | str s hb hlen =>
      rw [show isZeroR (.vString s) = s.isEmpty from by rw [isZeroR]] at hz
      rw [List.isEmpty_iff] at hz
      subst hz
      rw [show zeroOf .tString = .vString [] from by rw [zeroOf]]
    | bytesNil =>
      rw [show zeroOf .tByteSlice = .vBytes none from by rw [zeroOf]]
    | bytes s hb hlen =>
      rw [show isZeroR (.vBytes (some s)) = (some s).isNone
        from by rw [isZeroR]] at hz
      simp at hz
    | f64 bits h =>
      rw [show isZeroR (.vF64 bits) = (bits == 0) from by rw [isZeroR]] at hz
      simp only [beq_iff_eq] at hz
      subst hz
      rw [show zeroOf .tF64 = .vF64 0 from by rw [zeroOf]]
    | sliceNil elem =>
      rw [show zeroOf (.tSlice elem) = .vSlice none from by rw [zeroOf]]
    | slice elem xs hlen htl =>
      rw [show isZeroR (.vSlice (some xs)) = (some xs).isNone
        from by rw [isZeroR]] at hz
      simp at hz
    | struct tfs vfs htf hord hver hbound =>
      rw [zeroOf_struct]
      have hmem : ∀ f ∈ vfs, isZeroR f.2.2 = true :=
        fun f hf => isZeroR_struct_mem vfs f hf hz
      have hszm : ∀ f ∈ vfs, sizeOf f.2.2 ≤ n := by
        intro f hf
        have := sizeOf_mem_struct vfs f hf
        omega
      congr 1
      clear hz hsz hord hver hbound
      induction tfs generalizing vfs with
      | nil =>
        cases htf
        simp
      | cons tf tfs' ih' =>
        cases htf with
        | cons o ver t v tfs0 vfs0 htv htf' =>
          simp only [List.map_cons, List.cons.injEq]
          refine ⟨?_, ?_⟩
          · have hv : v = zeroOf t :=
              ihn v (hszm (o, ver, v) (by simp)) t htv
                (hmem (o, ver, v) (by simp))
            rw [hv]
          · exact ih' vfs0 htf' (fun f hf => hmem f (by simp [hf]))
              (fun f hf => hszm f (by simp [hf]))

/-- The round-trip property of a single value: decoding its encoding at
the same nesting level restores it and consumes exactly its bytes. -/
def RT (v : RVal) : Prop :=
  ∀ t, Typed t v → goodF v = true →
    ∀ k bs, encodeV v k = .ok bs → k + depthR v ≤ 100 →
      ∀ rest, valueReader0D t k (bs ++ rest) = .ok (v, rest)

/-- C1 helper: zero-filling the remaining fields of a struct whose
remaining values are all zero restores exactly those values. -/
theorem zeroFillLoop_rt (n : Nat) :
    ∀ tfs vfs, TypedFields tfs vfs → ∀ k, ¬ k > 100 →
      (∀ f ∈ vfs, isZeroR f.2.2 = true) →
      (∀ f ∈ vfs, sizeOf f.2.2 ≤ n) →
      ∀ s, zeroFillLoop tfs k s = .ok (vfs, s) := by
  intro tfs
  induction tfs with
  | nil =>
    intro vfs htf k hk _ _ s
    cases htf
    rw [zeroFillLoop_nil]
  | cons tf tfs' ih =>
    intro vfs htf k hk hmem hszm s
    cases htf with
    | cons o ver t v tfs0 vfs0 htv htf' =>
      rw [zeroFillLoop_cons]
      rw [decode_zero t k hk s]
      dsimp only
      rw [ih vfs0 htf' k hk (fun f hf => hmem f (by simp [hf]))
        (fun f hf => hszm f (by simp [hf])) s]
      dsimp only
      have hv : v = zeroOf t :=
        isZero_zeroOf n v (hszm (o, ver, v) (by simp)) t htv
          (hmem (o, ver, v) (by simp))
      rw [hv]

/-- C1 helper: the record iterator skips a run of Zero placeholders one
data position at a time. -/
theorem skip_pad (g : Nat) :
    ∀ (o ver : Nat) (ft : RType) (tfs : List (Nat × Nat × RType))
      (cnt i k : Nat) (s : List Nat),
      i + g = o → g ≤ cnt →
      decodeStructLoop ((o, ver, ft) :: tfs) cnt i k
          (List.replicate g 0x80 ++ s)
        = decodeStructLoop ((o, ver, ft) :: tfs) (cnt - g) (i + g) k s := by
  induction g with
  | zero =>
    intro o ver ft tfs cnt i k s hio hg
    simp
  | succ g ih =>
    intro o ver ft tfs cnt i k s hio hg
    obtain ⟨c, rfl⟩ : ∃ c, cnt = c + 1 := ⟨cnt - 1, by omega⟩
    rw [decodeStructLoop_step]
    rw [if_neg (by omega), if_pos (by omega)]
    rw [show List.replicate (g + 1) 0x80 ++ s
        = 0x80 :: (List.replicate g 0x80 ++ s) from by
      rw [List.replicate_succ, List.cons_append]]
    rw [skip_zero]
    dsimp only
    rw [ih o ver ft tfs c (i + 1) k s (by omega) (by omega)]
    congr 1
    all_goals first | rfl | omega

/-! ### Chain and indexing glue -/

theorem chain'_getD_add {α : Type} (f : α → Nat) (l : List α) (d : α)
    (hch : List.Chain' (fun x y => f x < f y) l) :
    ∀ j, j < l.length → f (l.getD 0 d) + j ≤ f (l.getD j d) := by
  induction l with
  | nil =>
    intro j hj
    simp at hj
  | cons x xs ih =>
    intro j hj
    cases j with
    | zero => simp
    | succ j' =>
      have hj' : j' < xs.length := by
        simp only [List.length_cons] at hj
        omega
      have hxs : xs ≠ [] := by
        intro hc
        subst hc
        simp at hj'
      obtain ⟨y, ys, rfl⟩ : ∃ y ys, xs = y :: ys := by
        rcases xs with _ | ⟨y, ys⟩
        · exact absurd rfl hxs
        · exact ⟨y, ys, rfl⟩
      have hch' := List.chain'_cons.mp hch
      have hih := ih hch'.2 j' hj'
      simp only [List.getD_cons_zero, List.getD_cons_succ] at hih ⊢
      omega

theorem chain'_getD_mono {α : Type} (f : α → Nat) (l : List α) (d : α)
    (hch : List.Chain' (fun x y => f x ≤ f y) l) :
    ∀ a b, a ≤ b → b < l.length → f (l.getD a d) ≤ f (l.getD b d) := by
  induction l with
  | nil =>
    intro a b hab hb
    simp at hb
  | cons x xs ih =>
    intro a b hab hb
    cases b with
    | zero =>
      obtain rfl : a = 0 := by omega
      simp
    | succ b' =>
      have hb' : b' < xs.length := by
        simp only [List.length_cons] at hb
        omega
      have hxs : xs ≠ [] := by
        intro hc
        subst hc
        simp at hb'
      obtain ⟨y, ys, rfl⟩ : ∃ y ys, xs = y :: ys := by
        rcases xs with _ | ⟨y, ys⟩
        · exact absurd rfl hxs
        · exact ⟨y, ys, rfl⟩
      have hch' := List.chain'_cons.mp hch
      cases a with
      | zero =>
        have hih := ih hch'.2 0 b' (by omega) hb'
        simp only [List.getD_cons_zero, List.getD_cons_succ] at hih ⊢
        omega
      | succ a' =>
        have hih := ih hch'.2 a' b' (by omega) hb'
        simp only [List.getD_cons_succ] at hih ⊢
        exact hih

theorem getD_map_lt {α β : Type} (g : α → β) (l : List α) (j : Nat)
    (hj : j < l.length) (d : β) (d0 : α) :
    (l.map g).getD j d = g (l.getD j d0) := by
  induction l generalizing j with
  | nil => simp at hj
  | cons x xs ih =>
    cases j with
    | zero => simp
    | succ j' =>
      simp only [List.map_cons, List.getD_cons_succ]
      exact ih j' (by simp at hj; omega)

/-- helper: the value-field list carries the type's orders. -/
theorem typedFields_fst (tfs : List (Nat × Nat × RType))
    (vfs : List (Nat × Nat × RVal)) (htf : TypedFields tfs vfs) :
    vfs.map (fun f => f.1) = tfs.map (fun f => f.1) := by
  induction tfs generalizing vfs with
  | nil =>
    cases htf
    simp
  | cons tf tfs' ih =>
    cases htf with
    | cons o ver t v tfs0 vfs0 htv htf' =>
      simp only [List.map_cons, List.cons.injEq]
      exact ⟨by trivial, ih vfs0 htf'⟩

/-- helper: the value-field list carries the type's versions. -/
theorem typedFields_snd (tfs : List (Nat × Nat × RType))
    (vfs : List (Nat × Nat × RVal)) (htf : TypedFields tfs vfs) :
    vfs.map (fun f => f.2.1) = tfs.map (fun f => f.2.1) := by
  induction tfs generalizing vfs with
  | nil =>
    cases htf
    simp
  | cons tf tfs' ih =>
    cases htf with
    | cons o ver t v tfs0 vfs0 htv htf' =>
      simp only [List.map_cons, List.cons.injEq]
      exact ⟨by trivial, ih vfs0 htf'⟩

theorem typedFields_length (tfs : List (Nat × Nat × RType))
    (vfs : List (Nat × Nat × RVal)) (htf : TypedFields tfs vfs) :
    vfs.length = tfs.length := by
  induction tfs generalizing vfs with
  | nil =>
    cases htf
    rfl
  | cons tf tfs' ih =>
    cases htf with
    | cons o ver t v tfs0 vfs0 htv htf' =>
      simp only [List.length_cons]
      rw [ih vfs0 htf']

/-- helper: the kept index is inside the field list. -/
theorem specK_lt (fields : List FieldV) (h : fields ≠ []) :
    specK fields < fields.length := by
  have h1 : 1 ≤ fields.length := by
    rcases fields with _ | _
    · exact absurd rfl h
    · simp
  have h2 : specK fields ≤ fields.length - 1 := by
    apply foldr_max_le
    intro a ha
    simp only [List.mem_filter, List.mem_range] at ha
    omega
  omega

/-- helper: every field above the kept prefix is zero. -/
theorem specK_dropped_zero (fields : List FieldV) (j : Nat)
    (hj1 : specK fields < j) (hj2 : j < fields.length) :
    (fields.getD j ⟨0, 0, false⟩).isZero = true := by
  by_contra hc
  rw [Bool.not_eq_true] at hc
  have hz : fvIsZero fields j = false := hc
  have hrel : fvRelevant fields j = true := by
    rw [fvRelevant, hz]
    simp
  have hgrp : fvGroupRelevant fields j = true := by
    rw [fvGroupRelevant, List.any_eq_true]
    refine ⟨j, by simp only [List.mem_range]; omega, ?_⟩
    rw [Bool.and_eq_true]
    exact ⟨by simp, hrel⟩
  have hmem : j ∈ (List.range fields.length).filter (fvGroupRelevant fields) := by
    rw [List.mem_filter, List.mem_range]
    exact ⟨hj2, hgrp⟩
  have hle := le_foldr_max _ j hmem
  rw [specK] at hj1
  omega
